import Mathlib

/-!
Verification of the memaw composable memory-allocation library
(block-cache allocator, size-class pool allocator and the lock-free
stack they share) against its natural-language specification.

The development is a shallow embedding of the C++ sources under
`include/memaw/`, with machine pointers and sizes modelled as `Nat`
(addresses are abstract byte offsets), and the concurrent operations
given their sequential semantics: in the absence of interference every
compare-and-swap loop succeeds on its first iteration, which is the
semantics the claims below quantify over (the spec states them for
executions with no concurrent calls in flight).

Modelling conventions:
* `pow2_t` values are naturals carrying an `IsPow2` side condition;
  the mask arithmetic `(x + mask) & ~mask` of the source becomes
  rounding up to a multiple, which is equal for power-of-two values.
* the `double` block-size multiplier of `cache_resource_config` is
  modelled as an integer (the library's own examples and defaults use
  integer multipliers, for which the source's `double` arithmetic is
  exact in the relevant range);
* loops whose bound is data-dependent are given an explicit fuel that
  provably dominates the iteration count, keeping every definition
  kernel-reducible so concrete runs can be evaluated by `decide`.
-/

namespace Memaw

/-! Byte regions.  A `free_chunk_t` node (cache) or `chunk_t` node
(pool) is overlaid at the first bytes of the freed region, so a region
is fully described by its start address and size. -/

/-- A contiguous byte region `[addr, addr + size)`. -/
structure Region where
  addr : Nat
  size : Nat
deriving DecidableEq, Repr

/-- One-past-the-end address of a region. -/
def Region.stop (r : Region) : Nat := r.addr + r.size

/-- Membership of byte `b` in region `r`. -/
def Region.holds (r : Region) (b : Nat) : Prop := r.addr ≤ b ∧ b < r.stop

instance (r : Region) (b : Nat) : Decidable (r.holds b) :=
  inferInstanceAs (Decidable (_ ∧ _))

/-- Some region of the list contains byte `b`. -/
def covers (rs : List Region) (b : Nat) : Prop := ∃ r ∈ rs, r.holds b

instance (rs : List Region) (b : Nat) : Decidable (covers rs b) :=
  inferInstanceAs (Decidable (∃ r ∈ rs, r.holds b))

/-- Two regions are separated (non-overlapping address ranges). -/
def Sep (r s : Region) : Prop := r.stop ≤ s.addr ∨ s.stop ≤ r.addr

instance (r s : Region) : Decidable (Sep r s) :=
  inferInstanceAs (Decidable (_ ∨ _))

/-- Region `r` lies strictly below region `s` with a gap: their address
ranges do not even touch.  A list that is a `Chain'` of this relation
is sorted by address with all adjacent regions already merged. -/
def RGap (r s : Region) : Prop := r.stop < s.addr

instance (r s : Region) : Decidable (RGap r s) :=
  inferInstanceAs (Decidable (_ < _))

/-- Total byte count of a list of regions. -/
def sizeSum (rs : List Region) : Nat := (rs.map Region.size).sum

instance : IsTrans Region RGap :=
  ⟨fun r s t h₁ h₂ => by
    unfold RGap Region.stop at *
    omega⟩

/-! Pointer alignment.  `align_pointer` from `resource_common.hpp`
computes `(ptr + mask) & ~mask` with `mask = alignment - 1`; for a
power-of-two alignment this equals rounding `ptr` up to the next
multiple of the alignment, which is how we express it on `Nat`. -/

/-- Aligns the pointer up by the given alignment; returns the new
pointer value and the number of padding bytes, as in the source's
`align_pointer`. -/
def align_pointer (ptr alignment : Nat) : Nat × Nat :=
  let result := (ptr + (alignment - 1)) - (ptr + (alignment - 1)) % alignment
  (result, result - ptr)

/-! Trailing zero count.  `get_chunk_alignment` in
`pool_resource_impl.hpp` computes `pow2_t{1} << std::countr_zero(size)`,
the largest power of two dividing the chunk size.  `countr_zero` is
modelled with an explicit fuel (the argument itself bounds the number
of halving steps), keeping the definition kernel-reducible. -/

def countr_zero_aux : Nat → Nat → Nat
  | 0, _ => 0
  | fuel + 1, n => if n % 2 = 0 ∧ n ≠ 0 then countr_zero_aux fuel (n / 2) + 1 else 0

/-- Number of trailing zero bits of `n` (for `n > 0`). -/
def countr_zero (n : Nat) : Nat := countr_zero_aux n n

/-- The value is a power of two: the source's `pow2_t` invariant. -/
def IsPow2 (n : Nat) : Prop := 2 ^ countr_zero n = n

instance (n : Nat) : Decidable (IsPow2 n) :=
  inferInstanceAs (Decidable (_ = _))

/-! The lock-free stack of `stack.hpp` in its sequential semantics.
Nodes are identified by their addresses; the head is the pair of the
top-node pointer and the ABA counter (`head_t`).  In the absence of
interference (or with the non-atomic `mem_ref` fallback) every
compare-and-swap loop in `push`/`pop` succeeds on its first iteration,
so the operations reduce to the list operations below.  `pop` on an
empty stack returns before attempting any compare-and-swap, leaving
the counter untouched. -/

/-- State of a `stack`: the node list hanging off the head pointer,
and the ABA counter stored next to it. -/
structure StackState where
  nodes : List Nat
  counter : Nat
deriving DecidableEq, Repr

/-- Sequential semantics of `stack::push`: the node is linked in front
of the old head and the compare-and-swap installs it with the counter
incremented. -/
def stack_push (s : StackState) (n : Nat) : StackState :=
  ⟨n :: s.nodes, s.counter + 1⟩

/-- Sequential semantics of `stack::pop`: a null head returns empty
without touching the state; otherwise the compare-and-swap detaches
the top node and increments the counter. -/
def stack_pop (s : StackState) : Option Nat × StackState :=
  match s.nodes with
  | [] => (none, s)
  | h :: t => (some h, ⟨t, s.counter + 1⟩)

/-! The region merge performed by the `cache_resource_impl` destructor
(and, with the same loop body, by `merge_chunks` in
`resource_common.hpp`).  The accumulated list `regions` is scanned for
the insertion point of each chunk (insertion sort by address); the
chunk is merged with the following region if its end touches it, and
with the preceding region if that region's end touches the chunk. -/

/-- Merge step with the region after the insertion point: mirrors the
`uintptr_t(next_region) == chunk_end` branch of the destructor. -/
def merge_next (r : Region) : List Region → Region × List Region
  | [] => (r, [])
  | x :: xs => if x.addr = r.stop then (⟨r.addr, r.size + x.size⟩, xs) else (r, x :: xs)

/-- One iteration of the destructor's outer loop: insert chunk `r`
into the sorted accumulated list `rs`, coalescing with the touching
neighbours.  The scan `while (next_region && chunk_begin >
uintptr_t(next_region))` splits `rs` at the first region whose address
exceeds the chunk's; the two merge branches follow the source. -/
def insert_chunk (r : Region) (rs : List Region) : List Region :=
  match (rs.takeWhile (fun x => decide (x.addr < r.addr))).getLast? with
  | some p =>
    if p.stop = r.addr then
      (rs.takeWhile (fun x => decide (x.addr < r.addr))).dropLast ++
        Region.mk p.addr (p.size +
          (merge_next r (rs.dropWhile (fun x => decide (x.addr < r.addr)))).1.size) ::
        (merge_next r (rs.dropWhile (fun x => decide (x.addr < r.addr)))).2
    else
      rs.takeWhile (fun x => decide (x.addr < r.addr)) ++
        (merge_next r (rs.dropWhile (fun x => decide (x.addr < r.addr)))).1 ::
        (merge_next r (rs.dropWhile (fun x => decide (x.addr < r.addr)))).2
  | none =>
    (merge_next r (rs.dropWhile (fun x => decide (x.addr < r.addr)))).1 ::
    (merge_next r (rs.dropWhile (fun x => decide (x.addr < r.addr)))).2

/-- The destructor's outer loop: fold every chunk of the free stack
into the accumulated sorted list, starting from `init` (the remaining
head region, if any). -/
def merge_regions (chunks : List Region) (init : List Region) : List Region :=
  chunks.foldl (fun acc c => insert_chunk c acc) init

/-! The block-cache allocator (`cache_resource_impl.hpp`). -/

/-- Configuration of `cache_resource` (`cache_resource_config`), with
the `double` multiplier modelled as an integer. -/
structure CacheConfig where
  granularity : Nat
  min_block_size : Nat
  max_block_size : Nat
  block_size_multiplier : Nat
deriving DecidableEq, Repr

/-- The `static_assert`s of `cache_resource`: the granularity is a
positive power of two not above `min_block_size`, the block bounds are
ordered, and the multiplier exceeds one unless the bounds coincide. -/
def CacheConfig.Valid (c : CacheConfig) : Prop :=
  IsPow2 c.granularity ∧
  c.granularity ≤ c.min_block_size ∧
  c.min_block_size ≤ c.max_block_size ∧
  (c.min_block_size = c.max_block_size ∨ 2 ≤ c.block_size_multiplier)

instance (c : CacheConfig) : Decidable c.Valid :=
  inferInstanceAs (Decidable (_ ∧ _ ∧ _ ∧ _))

/-- Static capabilities of the upstream resource consumed by
`ceil_allocation_size`: whether it is granular or merely bound, its
minimum size, and its guaranteed allocation alignment. -/
structure UpstreamSpec where
  granular : Bool
  bound : Bool
  min_size : Nat
  guaranteed_alignment : Nat
deriving DecidableEq, Repr

/-- Sanity of the upstream capability record: a positive minimum size
and a power-of-two guaranteed alignment. -/
def UpstreamSpec.Valid (u : UpstreamSpec) : Prop :=
  0 < u.min_size ∧ IsPow2 u.guaranteed_alignment

instance (u : UpstreamSpec) : Decidable u.Valid :=
  inferInstanceAs (Decidable (_ ∧ _))

/-- `ceil_allocation_size`: the next smallest allocation size valid
for the upstream (at least `min_size()` if bound, a multiple of it if
granular). -/
def ceil_allocation_size (u : UpstreamSpec) (size : Nat) : Nat :=
  if u.granular then
    size + (if size % u.min_size > 0 then u.min_size - size % u.min_size else 0)
  else if u.bound then Nat.max size u.min_size
  else size

/-- `get_next_block_size`: the next block size from the configuration
and the relaxed-loaded `last_block_size_` hint. -/
def get_next_block_size (c : CacheConfig) (lbs : Nat) : Nat :=
  if c.min_block_size = c.max_block_size then c.max_block_size
  else if lbs = 0 then c.min_block_size
  else Nat.min (lbs * c.block_size_multiplier) c.max_block_size

/-- `get_prev_block_size`: one geometric step down, floored at
`min_block_size` (`ceil(size / multiplier)` in the source). -/
def get_prev_block_size (c : CacheConfig) (size : Nat) : Nat :=
  if c.min_block_size = c.max_block_size then c.min_block_size
  else Nat.max ((size + (c.block_size_multiplier - 1)) / c.block_size_multiplier)
    c.min_block_size

/-- An upstream allocation oracle: given the requested size and
alignment, either the address of the fresh block or `none` on
failure.  Determinism in the arguments is the sequential abstraction
of a fixed upstream environment. -/
def Oracle : Type := Nat → Nat → Option Nat

/-- The descending candidate sequence of the step-down policy:
`n, get_prev_block_size(n), …` down to `min_block_size` (fueled; `n`
itself bounds the number of strict decreases). -/
def step_seq_aux (c : CacheConfig) : Nat → Nat → List Nat
  | 0, n => [n]
  | fuel + 1, n =>
    if n = c.min_block_size then [n]
    else n :: step_seq_aux c fuel (get_prev_block_size c n)

/-- The candidate block sizes considered by `upstream_allocate` when
starting from candidate `n`: the geometric step-down to
`min_block_size`. -/
def step_seq (c : CacheConfig) (n : Nat) : List Nat := step_seq_aux c n n

/-- The retry loop of `upstream_allocate`.  Returns the allocation
result (block address and allocation size), the trace of sizes
requested from the upstream (in order), and the final
`last_block_size_` hint.  The fuel dominates the iteration count: the
candidate `next_size` strictly decreases down to `min_block_size`, so
`next_size + 1` steps always suffice (see
`upstream_allocate_loop_fuel`). -/
def upstream_allocate_loop (c : CacheConfig) (u : UpstreamSpec) (oracle : Oracle)
    (size alignment lbs : Nat) :
    Nat → Nat → Nat → Nat → Option (Nat × Nat) × List Nat × Nat
  | 0, _, _, _ => (none, [], lbs)
  | fuel + 1, nextSize, nextAllocation, allocationSize =>
    match oracle allocationSize (Nat.max alignment c.granularity) with
    | some ptr => (some (ptr, allocationSize), [allocationSize], nextSize)
    | none =>
      if nextAllocation < allocationSize then (none, [allocationSize], lbs)
      else if nextSize = c.min_block_size then
        (none, [allocationSize],
         if alignment ≤ c.granularity then 0 else lbs)
      else
        let ns := get_prev_block_size c nextSize
        let na := ceil_allocation_size u ns
        if na < size then
          (none, [allocationSize],
           if alignment ≤ c.granularity then ns else lbs)
        else
          match upstream_allocate_loop c u oracle size alignment lbs
            fuel ns na na with
          | (res, tr, lbs') => (res, allocationSize :: tr, lbs')

/-- `upstream_allocate`: determine the first candidate size from the
hint and enter the retry loop. -/
def upstream_allocate (c : CacheConfig) (u : UpstreamSpec) (oracle : Oracle)
    (size alignment lbs : Nat) : Option (Nat × Nat) × List Nat × Nat :=
  let nextSize := get_next_block_size c lbs
  let nextAllocation := ceil_allocation_size u nextSize
  let allocationSize :=
    if nextAllocation ≥ size then nextAllocation else ceil_allocation_size u size
  upstream_allocate_loop c u oracle size alignment lbs
    (nextSize + 1) nextSize nextAllocation allocationSize

/-- A chunk of the cache's free stack: the arguments of the
`deallocate()` call that created it (`free_chunk_t`). -/
structure FreeChunk where
  addr : Nat
  size : Nat
  alignment : Nat
deriving DecidableEq, Repr

/-- State of a `cache_resource_impl`: the 16-byte head block (pointer
and remaining size), the free-chunk stack and the block-size hint. -/
structure CacheState where
  headPtr : Nat
  headSize : Nat
  freeChunks : List FreeChunk
  lastBlockSize : Nat
deriving DecidableEq, Repr

/-- `cache_resource_impl::deallocate`: null pointers and zero sizes
return immediately; everything else is pushed onto the free-chunk
stack (sequential semantics of the release-CAS push loop). -/
def cache_deallocate (st : CacheState) (ptr size alignment : Nat) : CacheState :=
  if ptr = 0 ∨ size = 0 then st
  else { st with freeChunks := ⟨ptr, size, alignment⟩ :: st.freeChunks }

/-- `cache_resource_impl::allocate` in sequential semantics.  Returns
the result, the trace of upstream request sizes, and the new state.
The fast path serves from the head block only when the loaded head
pointer is already aligned; otherwise the upstream is consulted, and
whichever of the old head and the new block's remainder has more space
becomes the head while the other is pushed to the free stack. -/
def cache_allocate (c : CacheConfig) (u : UpstreamSpec) (oracle : Oracle)
    (st : CacheState) (size alignment : Nat) :
    Option Nat × List Nat × CacheState :=
  if size % c.granularity ≠ 0 then (none, [], st)
  else if size ≤ st.headSize ∧ st.headPtr % alignment = 0 then
    (some st.headPtr, [],
     { st with headPtr := st.headPtr + size, headSize := st.headSize - size })
  else
    match (upstream_allocate c u oracle size alignment st.lastBlockSize).1 with
    | none =>
      (none, (upstream_allocate c u oracle size alignment st.lastBlockSize).2.1,
       { st with lastBlockSize :=
          (upstream_allocate c u oracle size alignment st.lastBlockSize).2.2 })
    | some pa =>
      if pa.2 - size ≤ st.headSize then
        (some pa.1,
         (upstream_allocate c u oracle size alignment st.lastBlockSize).2.1,
         if pa.2 - size ≠ 0 then
           cache_deallocate
             { st with lastBlockSize :=
                (upstream_allocate c u oracle size alignment st.lastBlockSize).2.2 }
             (pa.1 + size) (pa.2 - size) 0
         else
           { st with lastBlockSize :=
              (upstream_allocate c u oracle size alignment st.lastBlockSize).2.2 })
      else
        (some pa.1,
         (upstream_allocate c u oracle size alignment st.lastBlockSize).2.1,
         if st.headSize ≠ 0 then
           cache_deallocate
             { st with
                headPtr := pa.1 + size, headSize := pa.2 - size,
                lastBlockSize :=
                  (upstream_allocate c u oracle size alignment st.lastBlockSize).2.2 }
             st.headPtr st.headSize 0
         else
           { st with
              headPtr := pa.1 + size, headSize := pa.2 - size,
              lastBlockSize :=
                (upstream_allocate c u oracle size alignment st.lastBlockSize).2.2 })

/-- The region list the destructor starts from: the remaining head
region, if non-empty. -/
def cache_dtor_init (st : CacheState) : List Region :=
  if st.headSize ≠ 0 then [⟨st.headPtr, st.headSize⟩] else []

/-- The free-stack chunks of a cache state, as regions, in stack
(traversal) order. -/
def cache_free_regions (st : CacheState) : List Region :=
  st.freeChunks.map (fun ch => ⟨ch.addr, ch.size⟩)

/-- The sorted, adjacency-merged region list built by
`~cache_resource_impl`; the destructor then walks this list and passes
each element to the upstream's `deallocate` exactly once, so it is
also the trace of destructor-issued upstream deallocations. -/
def cache_dtor_regions (st : CacheState) : List Region :=
  merge_regions (cache_free_regions st) (cache_dtor_init st)

/-! The size-class pool allocator (`pool_resource_impl.hpp`). -/

/-- Configuration of `pool_resource` (`pool_resource_config`). -/
structure PoolConfig where
  min_chunk_size : Nat
  max_chunk_size : Nat
  chunk_size_multiplier : Nat
deriving DecidableEq, Repr

/-- The fueled inner loop of `get_chunk_sizes`'s `log_mult`: counts
completed iterations of `for (prod = 1; prod < value; ++result)` with
`prod *= multiplier`, breaking if the multiplier is below two. -/
def log_mult_aux (mult value : Nat) : Nat → Nat → Nat → Nat
  | 0, _, acc => acc
  | fuel + 1, prod, acc =>
    if prod < value then
      if mult < 2 then acc else log_mult_aux mult value fuel (prod * mult) (acc + 1)
    else acc

/-- Logarithm base the multiplier, as computed in `get_chunk_sizes`
(the value itself bounds the iteration count since `prod` at least
doubles each step). -/
def log_mult (mult value : Nat) : Nat := log_mult_aux mult value value 1 0

/-- `get_chunk_sizes`: the geometric series
`min_chunk_size * multiplier ^ i` with `1 + log_mult(max/min)`
entries (the fill loop `result[i] = result[i-1] * multiplier` in
closed form). -/
def chunk_sizes (c : PoolConfig) : List Nat :=
  (List.range (1 + log_mult c.chunk_size_multiplier
    (c.max_chunk_size / c.min_chunk_size))).map
    (fun i => c.min_chunk_size * c.chunk_size_multiplier ^ i)

/-- The compile-time checks on `pool_resource`: `min_chunk_size` is a
power of two of at least the size of a `chunk_t` node (16 bytes),
`max_chunk_size` is a positive multiple of it, the multiplier is
positive, and the precomputed series terminates exactly on
`max_chunk_size` (`chunk_sizes.back() == max_chunk_size`). -/
def PoolConfig.Valid (c : PoolConfig) : Prop :=
  IsPow2 c.min_chunk_size ∧
  16 ≤ c.min_chunk_size ∧
  c.min_chunk_size ≤ c.max_chunk_size ∧
  c.max_chunk_size % c.min_chunk_size = 0 ∧
  0 < c.chunk_size_multiplier ∧
  (chunk_sizes c).getLast? = some c.max_chunk_size

instance (c : PoolConfig) : Decidable c.Valid :=
  inferInstanceAs (Decidable (_ ∧ _ ∧ _ ∧ _ ∧ _ ∧ _))

/-- `get_upstream_alignment`: the real alignment of any upstream
allocation (`max(min_chunk_size, guaranteed_alignment)`). -/
def get_upstream_alignment (c : PoolConfig) (u : UpstreamSpec) : Nat :=
  Nat.max c.min_chunk_size u.guaranteed_alignment

/-- `get_chunk_alignment`: the real alignment of any chunk of the
given size class (largest power-of-two divisor of the chunk size,
capped by the upstream alignment). -/
def get_chunk_alignment (c : PoolConfig) (u : UpstreamSpec) (id : Nat) : Nat :=
  Nat.min (2 ^ countr_zero ((chunk_sizes c).getD id 0))
    (get_upstream_alignment c u)

/-- State of a `pool_resource_impl`: one free stack of chunk
addresses per size class (index into `chunk_sizes`). -/
def PoolState : Type := List (List Nat)

instance : DecidableEq PoolState :=
  inferInstanceAs (DecidableEq (List (List Nat)))

/-- Push a chunk address onto the free stack of the given class. -/
def pool_push (st : PoolState) (id : Nat) (a : Nat) : PoolState :=
  st.set id (a :: st.getD id [])

/-- The `while (upper_size >= chunk_size)` loop of
`pool_resource_impl::deallocate`: carve chunks from the top of the
upper range downwards.  Returns the pushed addresses in push order
together with the final `upper_size`; the fuel (the initial size
bounds it) keeps the recursion structural. -/
def carve_upper (base cs : Nat) : Nat → Nat → List Nat × Nat
  | 0, us => ([], us)
  | fuel + 1, us =>
    if cs ≤ us then
      match carve_upper base cs fuel (us - cs) with
      | (l, fin) => ((base + (us - cs)) :: l, fin)
    else ([], us)

/-- The `while (lower_size >= chunk_size)` loop of
`pool_resource_impl::deallocate`: carve chunks from the bottom of the
lower range upwards.  Returns the pushed addresses, the final
`lower_ptr` and the final `lower_size`. -/
def carve_lower (cs : Nat) : Nat → Nat → Nat → List Nat × Nat × Nat
  | 0, lp, ls => ([], lp, ls)
  | fuel + 1, lp, ls =>
    if cs ≤ ls then
      match carve_lower cs fuel (lp + cs) (ls - cs) with
      | (l, lp', ls') => (lp :: l, lp', ls')
    else ([], lp, ls)

/-- The first loop of `pool_resource_impl::deallocate`: scan the size
classes from the largest down to class 1 for the biggest chunk size
whose naturally aligned placement fits in the range; returns the class
index and the alignment padding, or `none` (in which case the caller
proceeds with `curr_id = 1` and an empty upper part).  The argument is
one past the first index to examine (so the scan starts at
`chunk_sizes.size() - 1`). -/
def find_split (c : PoolConfig) (u : UpstreamSpec) (ptr size : Nat) :
    Nat → Option (Nat × Nat)
  | 0 => none
  | 1 => none
  | i + 1 =>
    let cs := (chunk_sizes c).getD i 0
    if size < cs then find_split c u ptr size i
    else
      let ap := align_pointer ptr (get_chunk_alignment c u i)
      if cs + ap.2 ≤ size then some (i, ap.2)
      else find_split c u ptr size i

/-- The second loop of `pool_resource_impl::deallocate`: for every
class from `curr_id - 1` down to 0, carve what fits from the upper
part (top down) and from the lower part (bottom up).  Returns the
pushed chunks as (class index, address) pairs in push order. -/
def fill_chunks (c : PoolConfig) :
    Nat → Nat → Nat → Nat → Nat → List (Nat × Nat)
  | 0, _, _, _, _ => []
  | i + 1, up, us, lp, ls =>
    let cs := (chunk_sizes c).getD i 0
    match carve_upper up cs us us with
    | (ups, us') =>
      match carve_lower cs ls lp ls with
      | (lows, lp', ls') =>
        (ups.map (fun a => (i, a))) ++ (lows.map (fun a => (i, a))) ++
          fill_chunks c i up us' lp' ls'

/-- The chunks pushed by `pool_resource_impl::deallocate(ptr, size)`
(class index and address, in push order): the split search followed by
the two-sided greedy fill. -/
def dealloc_chunks (c : PoolConfig) (u : UpstreamSpec) (ptr size : Nat) :
    List (Nat × Nat) :=
  match find_split c u ptr size (chunk_sizes c).length with
  | some (i, padding) =>
    fill_chunks c (i + 1) ptr padding (ptr + padding) (size - padding)
  | none => fill_chunks c 1 ptr 0 ptr size

/-- The byte region of a carved chunk: its class's chunk size starting
at its address. -/
def chunk_region (c : PoolConfig) (ch : Nat × Nat) : Region :=
  ⟨ch.2, (chunk_sizes c).getD ch.1 0⟩

/-- The canonical ascending tiling of `[W, W + q * cs)` by `q` chunks
of size `cs` (the shape of the regions pushed by one class iteration
of the deallocation fill loop). -/
def tile (W cs q : Nat) : List Region :=
  (List.range q).map (fun k => ⟨W + k * cs, cs⟩)

/-- Region `r` ends at or before region `s` starts (adjacent regions
allowed). -/
def RTouch (r s : Region) : Prop := r.stop ≤ s.addr

instance (r s : Region) : Decidable (RTouch r s) :=
  inferInstanceAs (Decidable (_ ≤ _))

instance : IsTrans Region RTouch :=
  ⟨fun a b c h₁ h₂ => by
    unfold RTouch Region.stop at *
    omega⟩

/-- `pool_resource_impl::deallocate`: ignore null pointers and sizes
below `min_chunk_size`, otherwise push every carved chunk onto its
class's stack. -/
def pool_deallocate (c : PoolConfig) (u : UpstreamSpec) (st : PoolState)
    (ptr size : Nat) : PoolState :=
  if ptr = 0 ∨ size < c.min_chunk_size then st
  else (dealloc_chunks c u ptr size).foldl (fun s ch => pool_push s ch.1 ch.2) st

/-- The public `pool_resource::deallocate`: the alignment parameter is
unnamed in the source and only the pointer and size are forwarded to
the implementation. -/
def pool_resource_deallocate (c : PoolConfig) (u : UpstreamSpec) (st : PoolState)
    (ptr size _alignment : Nat) : PoolState :=
  pool_deallocate c u st ptr size

/-- `pool_resource_impl::allocate_from_block`: align the block
pointer, return the padding and the tail beyond the requested size to
the pool, and hand out the aligned pointer. -/
def allocate_from_block (c : PoolConfig) (u : UpstreamSpec) (st : PoolState)
    (blockPtr blockSize size alignment : Nat) : Nat × PoolState :=
  let ap := align_pointer blockPtr alignment
  let st1 := if ap.2 ≠ 0 then pool_deallocate c u st blockPtr ap.2 else st
  let left := blockSize - ap.2 - size
  let st2 := if left ≠ 0 then pool_deallocate c u st1 (ap.1 + size) left else st1
  (ap.1, st2)

/-- The stack-selection scan of `pool_resource_impl::allocate`: find
the first size class that can hold the request (enough chunk size, and
either enough natural alignment or enough slack to absorb the
padding).  Scans the ascending index list. -/
def find_class (c : PoolConfig) (u : UpstreamSpec) (size alignment : Nat) :
    List Nat → Option Nat
  | [] => none
  | i :: rest =>
    let cs := (chunk_sizes c).getD i 0
    if size ≤ cs ∧
        (alignment ≤ get_chunk_alignment c u i ∨
         alignment - get_chunk_alignment c u i ≤ cs - size) then some i
    else find_class c u size alignment rest

/-- The pop loop of `pool_resource_impl::allocate`: pop from the first
non-empty stack at or after the selected class. -/
def pop_scan (st : PoolState) : List Nat → Option (Nat × Nat)
  | [] => none
  | i :: rest =>
    match st.getD i [] with
    | [] => pop_scan st rest
    | a :: _ => some (i, a)

/-- Remove the top chunk of the given class stack (the successful
`pop`). -/
def pool_pop_stack (st : PoolState) (i : Nat) : PoolState :=
  st.set i ((st.getD i []).tail)

/-- The chunk-stack lookup of `pool_resource_impl::allocate`: the
first acceptable class followed by the pop loop over the stacks at or
after it. -/
def pool_find_chunk (c : PoolConfig) (u : UpstreamSpec) (st : PoolState)
    (size alignment : Nat) : Option (Nat × Nat) :=
  match find_class c u size alignment (List.range (chunk_sizes c).length) with
  | some j => pop_scan st ((List.range (chunk_sizes c).length).drop j)
  | none => none

/-- Modelled from the spec: the size `pool_resource_impl::allocate`
requests from the upstream when no pooled chunk fits is
`max(max_padding + size, max_chunk_size * multiplier)` (those two
operands are from the source), then ceiled per the upstream's rules —
the ceiling is the `allocate_at_least` contract, whose implementation
is not part of the sources under `src/`; the spec says "sized at
`max_chunk_size * multiplier` ... ceiled per the upstream's
bound/granularity rules", matching the library's own
`resource_common` tests. -/
def pool_upstream_size (c : PoolConfig) (u : UpstreamSpec)
    (size alignment : Nat) : Nat :=
  ceil_allocation_size u
    (Nat.max ((alignment - Nat.min alignment (get_upstream_alignment c u)) + size)
      (c.max_chunk_size * c.chunk_size_multiplier))

/-- `pool_resource_impl::allocate` in sequential semantics.  Returns
the result, the trace of upstream `(size, alignment)` requests, and
the new state. -/
def pool_allocate (c : PoolConfig) (u : UpstreamSpec) (oracle : Oracle)
    (st : PoolState) (size alignment : Nat) :
    Option Nat × List (Nat × Nat) × PoolState :=
  if size % c.min_chunk_size ≠ 0 then (none, [], st)
  else
    match pool_find_chunk c u st size alignment with
    | some ia =>
      (some (allocate_from_block c u (pool_pop_stack st ia.1) ia.2
          ((chunk_sizes c).getD ia.1 0) size alignment).1,
       [],
       (allocate_from_block c u (pool_pop_stack st ia.1) ia.2
          ((chunk_sizes c).getD ia.1 0) size alignment).2)
    | none =>
      match oracle (pool_upstream_size c u size alignment) c.min_chunk_size with
      | none => (none, [(pool_upstream_size c u size alignment,
          c.min_chunk_size)], st)
      | some b =>
        (some (allocate_from_block c u st b
            (pool_upstream_size c u size alignment) size alignment).1,
         [(pool_upstream_size c u size alignment, c.min_chunk_size)],
         (allocate_from_block c u st b
            (pool_upstream_size c u size alignment) size alignment).2)

/-- An empty pool: every class stack is empty. -/
def pool_empty (c : PoolConfig) : PoolState :=
  List.replicate (chunk_sizes c).length []

/-- Well-formedness of a pool state: one stack per size class, and
every chunk parked on a class's stack is a non-null address aligned to
that class's natural alignment (which the source's placement of
class-sized chunks maintains). -/
def PoolWF (c : PoolConfig) (u : UpstreamSpec) (st : PoolState) : Prop :=
  st.length = (chunk_sizes c).length ∧
  ∀ i, i < st.length → ∀ a ∈ st.getD i [],
    a ≠ 0 ∧ a % get_chunk_alignment c u i = 0

/-- An upstream oracle respecting the resource contract consumed by
the pool: a successful allocation is non-null and aligned both to the
requested alignment and to the upstream's guaranteed alignment. -/
def OracleWF (u : UpstreamSpec) (oracle : Oracle) : Prop :=
  ∀ sz al r, oracle sz al = some r →
    r ≠ 0 ∧ r % Nat.max al u.guaranteed_alignment = 0

/-! Basic lemmas about regions. -/

theorem rgap_trans {r s t : Region} (h₁ : RGap r s) (h₂ : RGap s t) :
    RGap r t := by
  unfold RGap Region.stop at *
  omega

theorem Sep.symm {r s : Region} (h : Sep r s) : Sep s r := h.elim .inr .inl

theorem Sep.of_rgap {r s : Region} (h : RGap r s) : Sep r s :=
  .inl (Nat.le_of_lt h)

/-- Separated regions share no byte. -/
theorem Sep.not_holds {r s : Region} (h : Sep r s) (b : Nat)
    (hr : r.holds b) (hs : s.holds b) : False := by
  rcases hr with ⟨hr₁, hr₂⟩
  rcases hs with ⟨hs₁, hs₂⟩
  rcases h with h | h <;> (unfold Region.stop at *; omega)

/-- Convexity: two positive regions that share no byte are separated. -/
theorem sep_of_no_common_byte {r s : Region} (hr : 0 < r.size)
    (hs : 0 < s.size) (h : ∀ b, ¬(r.holds b ∧ s.holds b)) : Sep r s := by
  by_contra hc
  unfold Sep at hc
  push_neg at hc
  apply h (max r.addr s.addr)
  unfold Region.holds Region.stop at *
  obtain ⟨h1, h2⟩ := hc
  exact ⟨⟨le_max_left _ _, by omega⟩, ⟨le_max_right _ _, by omega⟩⟩

theorem covers_append {xs ys : List Region} {b : Nat} :
    covers (xs ++ ys) b ↔ covers xs b ∨ covers ys b := by
  unfold covers
  simp [List.mem_append, or_and_right, exists_or]

theorem covers_cons {x : Region} {xs : List Region} {b : Nat} :
    covers (x :: xs) b ↔ x.holds b ∨ covers xs b := by
  unfold covers
  simp [or_and_right, exists_or]

theorem covers_nil {b : Nat} : ¬ covers [] b := by
  unfold covers
  simp

theorem sizeSum_append {xs ys : List Region} :
    sizeSum (xs ++ ys) = sizeSum xs + sizeSum ys := by
  unfold sizeSum
  simp

theorem sizeSum_cons {x : Region} {xs : List Region} :
    sizeSum (x :: xs) = x.size + sizeSum xs := by
  unfold sizeSum
  simp

/-- A `Chain'` of gapped regions is pairwise separated. -/
theorem pairwise_sep_of_chain' {rs : List Region}
    (h : List.Chain' RGap rs) : List.Pairwise Sep rs :=
  (List.chain'_iff_pairwise.mp h).imp Sep.of_rgap

/-! Lemmas about `align_pointer`. -/

theorem align_pointer_dvd {a : Nat} (_ha : 0 < a) (ptr : Nat) :
    a ∣ (align_pointer ptr a).1 := by
  unfold align_pointer
  simp only
  exact Nat.dvd_sub_mod _

theorem align_pointer_le {a : Nat} (ha : 0 < a) (ptr : Nat) :
    ptr ≤ (align_pointer ptr a).1 := by
  unfold align_pointer
  simp only
  have h2 : (ptr + (a - 1)) % a < a := Nat.mod_lt _ ha
  generalize (ptr + (a - 1)) % a = m at h2 ⊢
  omega

theorem align_pointer_lt {a : Nat} (ha : 0 < a) (ptr : Nat) :
    (align_pointer ptr a).1 < ptr + a := by
  unfold align_pointer
  simp only
  have h2 : (ptr + (a - 1)) - (ptr + (a - 1)) % a ≤ ptr + (a - 1) :=
    Nat.sub_le _ _
  omega

theorem align_pointer_add_padding {a : Nat} (ha : 0 < a) (ptr : Nat) :
    (align_pointer ptr a).1 = ptr + (align_pointer ptr a).2 := by
  have h := align_pointer_le ha ptr
  unfold align_pointer at *
  simp only at *
  omega

theorem align_pointer_of_dvd {a ptr : Nat} (ha : 0 < a) (h : a ∣ ptr) :
    align_pointer ptr a = (ptr, 0) := by
  unfold align_pointer
  obtain ⟨c, rfl⟩ := h
  have h1 : (a * c + (a - 1)) % a = (a - 1) % a := by
    rw [Nat.add_comm, Nat.mul_comm, Nat.add_mul_mod_self_right]
  have h2 : (a - 1) % a = a - 1 := Nat.mod_eq_of_lt (by omega)
  simp only [h1, h2, Prod.mk.injEq]
  omega

/-- The padding is a multiple of any value dividing both the pointer
and the alignment. -/
theorem align_pointer_padding_dvd {d a ptr : Nat} (ha : 0 < a)
    (hda : d ∣ a) (hdp : d ∣ ptr) : d ∣ (align_pointer ptr a).2 := by
  have h1 : a ∣ (align_pointer ptr a).1 := align_pointer_dvd ha ptr
  have h3 : d ∣ (align_pointer ptr a).1 := dvd_trans hda h1
  exact Nat.dvd_sub' h3 hdp

/-! Lemmas about `countr_zero` and `IsPow2`. -/

theorem countr_zero_aux_spec : ∀ (fuel n : Nat), n ≤ fuel → n ≠ 0 →
    2 ^ countr_zero_aux fuel n ∣ n ∧ ¬ 2 ^ (countr_zero_aux fuel n + 1) ∣ n := by
  intro fuel
  induction fuel with
  | zero => intro n hle hne; omega
  | succ fuel ih =>
    intro n hle hne
    by_cases he : n % 2 = 0 ∧ n ≠ 0
    · have h2 : n / 2 ≠ 0 := by omega
      have h3 : n / 2 ≤ fuel := by omega
      obtain ⟨ihd, ihnd⟩ := ih (n / 2) h3 h2
      have hn2 : n = 2 * (n / 2) := by omega
      have hrw : countr_zero_aux (fuel + 1) n =
          countr_zero_aux fuel (n / 2) + 1 := by
        simp only [countr_zero_aux]
        rw [if_pos he]
      set c := countr_zero_aux fuel (n / 2) with hc
      rw [hrw]
      constructor
      · obtain ⟨d, hd⟩ := ihd
        refine ⟨d, ?_⟩
        calc n = 2 * (n / 2) := hn2
          _ = 2 * (2 ^ c * d) := by rw [hd]
          _ = 2 ^ (c + 1) * d := by ring
      · intro hcon
        obtain ⟨d, hd⟩ := hcon
        apply ihnd
        refine ⟨d, ?_⟩
        have hh : 2 * (n / 2) = 2 * (2 ^ (c + 1) * d) := by
          calc 2 * (n / 2) = n := hn2.symm
            _ = 2 ^ (c + 1 + 1) * d := hd
            _ = 2 * (2 ^ (c + 1) * d) := by ring
        exact Nat.eq_of_mul_eq_mul_left (by omega) hh
    · have ho : n % 2 = 1 := by omega
      have hrw : countr_zero_aux (fuel + 1) n = 0 := by
        simp only [countr_zero_aux]
        rw [if_neg he]
      rw [hrw]
      constructor
      · exact Nat.one_dvd n
      · intro hcon
        rcases hcon with ⟨c, hc⟩
        rw [pow_one] at hc
        omega

theorem countr_zero_dvd {n : Nat} (hn : n ≠ 0) : 2 ^ countr_zero n ∣ n :=
  (countr_zero_aux_spec n n (Nat.le_refl n) hn).1

theorem le_countr_zero {n k : Nat} (hn : n ≠ 0) (h : 2 ^ k ∣ n) :
    k ≤ countr_zero n := by
  by_contra hc
  have hk : countr_zero n + 1 ≤ k := by omega
  exact (countr_zero_aux_spec n n (Nat.le_refl n) hn).2
    (dvd_trans (pow_dvd_pow 2 hk) h)

theorem countr_zero_two_pow (k : Nat) : countr_zero (2 ^ k) = k := by
  have hne : (2 : Nat) ^ k ≠ 0 := by positivity
  have h1 : countr_zero (2 ^ k) ≤ k := by
    have hle := Nat.le_of_dvd (by positivity) (countr_zero_dvd hne)
    exact (Nat.pow_le_pow_iff_right (by omega)).mp hle
  have h2 : k ≤ countr_zero (2 ^ k) := le_countr_zero hne dvd_rfl
  omega

theorem isPow2_two_pow (k : Nat) : IsPow2 (2 ^ k) := by
  unfold IsPow2
  rw [countr_zero_two_pow]

theorem IsPow2.exists_pow {n : Nat} (h : IsPow2 n) : ∃ k, n = 2 ^ k :=
  ⟨countr_zero n, h.symm⟩

theorem IsPow2.pos {n : Nat} (h : IsPow2 n) : 0 < n := by
  obtain ⟨k, rfl⟩ := h.exists_pow
  positivity

/-- Comparable powers of two divide each other. -/
theorem IsPow2.dvd_of_le {m n : Nat} (hm : IsPow2 m) (hn : IsPow2 n)
    (h : m ≤ n) : m ∣ n := by
  obtain ⟨i, rfl⟩ := hm.exists_pow
  obtain ⟨j, rfl⟩ := hn.exists_pow
  exact pow_dvd_pow 2 ((Nat.pow_le_pow_iff_right (by omega)).mp h)

theorem IsPow2.min {m n : Nat} (hm : IsPow2 m) (hn : IsPow2 n) :
    IsPow2 (Nat.min m n) := by
  unfold Nat.min
  rcases le_total m n with h | h
  · rwa [min_eq_left h]
  · rwa [min_eq_right h]

theorem IsPow2.max {m n : Nat} (hm : IsPow2 m) (hn : IsPow2 n) :
    IsPow2 (Nat.max m n) := by
  unfold Nat.max
  rcases le_total m n with h | h
  · rwa [max_eq_right h]
  · rwa [max_eq_left h]

/-- Claim C8: in the sequential (single-threaded) semantics of the
free stack, `pop()` on an empty stack returns null and leaves the
stack empty; `pop()` right after `push(n)` returns `n` and restores
the node list that preceded the push; and every push and every
successful pop increments the ABA counter by exactly one, so the
counter never decreases. -/
theorem claim_stack_pop_push_counter :
    (∀ cnt, stack_pop ⟨[], cnt⟩ = (none, ⟨[], cnt⟩)) ∧
    (∀ (s : StackState) (n : Nat),
      stack_pop (stack_push s n) = (some n, ⟨s.nodes, s.counter + 2⟩)) ∧
    (∀ (s : StackState) (n : Nat), (stack_push s n).counter = s.counter + 1) ∧
    (∀ (s : StackState) (v : Nat) (s' : StackState),
      stack_pop s = (some v, s') → s'.counter = s.counter + 1) ∧
    (∀ s : StackState, s.counter ≤ (stack_pop s).2.counter) := by
  refine ⟨fun cnt => rfl, fun s n => rfl, fun s n => rfl, ?_, ?_⟩
  · intro s v s' h
    match hs : s.nodes with
    | [] =>
      unfold stack_pop at h
      rw [hs] at h
      exact absurd (congrArg Prod.fst h) (by simp)
    | a :: t =>
      unfold stack_pop at h
      rw [hs] at h
      have h2 := congrArg Prod.snd h
      simp at h2
      rw [← h2]
  · intro s
    match hs : s.nodes with
    | [] =>
      unfold stack_pop
      rw [hs]
    | a :: t =>
      unfold stack_pop
      rw [hs]
      simp

/-- Witness for C8: the pop-after-push law applied at a concrete
stack, discharging the successful-pop hypothesis. -/
theorem claim_stack_pop_push_counter_witness :
    stack_pop ⟨[7, 2], 3⟩ = (some 7, ⟨[2], 4⟩) ∧
    (⟨[2], 4⟩ : StackState).counter = (⟨[7, 2], 3⟩ : StackState).counter + 1 :=
  ⟨by decide,
   claim_stack_pop_push_counter.2.2.2.1 ⟨[7, 2], 3⟩ 7 ⟨[2], 4⟩ (by decide)⟩

/-! Correctness of the destructor's merge. -/

/-- The head of a `dropWhile` result fails the predicate. -/
theorem head_dropWhile_false {α : Type} (p : α → Bool) :
    ∀ (l : List α) (y : α), (l.dropWhile p).head? = some y → p y = false := by
  intro l
  induction l with
  | nil =>
    intro y h
    simp [List.dropWhile] at h
  | cons x xs ih =>
    intro y h
    rw [List.dropWhile_cons] at h
    by_cases hx : p x = true
    · rw [if_pos hx] at h
      exact ih y h
    · rw [if_neg hx] at h
      simp only [List.head?_cons, Option.some.injEq] at h
      rw [← h]
      exact Bool.not_eq_true _ |>.mp hx

/-- Two regions touching end-to-start merge into one region covering
exactly their union. -/
theorem holds_merge {r s : Region} (h : s.addr = r.stop) (b : Nat) :
    (Region.mk r.addr (r.size + s.size)).holds b ↔ r.holds b ∨ s.holds b := by
  unfold Region.holds Region.stop at *
  simp only
  omega

/-- Specification of `merge_next` on a gapped suffix lying at or above
the chunk: the merged head keeps the chunk's address, the result is
still gapped, and coverage and total size are preserved. -/
theorem merge_next_spec (r : Region) (suf : List Region)
    (hg : List.Chain' RGap suf)
    (hpos : ∀ x ∈ suf, 0 < x.size) (hr : 0 < r.size)
    (hd : ∀ x ∈ suf, Sep r x)
    (hhead : ∀ y ∈ suf.head?, r.addr ≤ y.addr) :
    (merge_next r suf).1.addr = r.addr ∧
    0 < (merge_next r suf).1.size ∧
    List.Chain' RGap ((merge_next r suf).1 :: (merge_next r suf).2) ∧
    (∀ x ∈ (merge_next r suf).2, 0 < x.size) ∧
    (∀ b, (merge_next r suf).1.holds b ∨ covers (merge_next r suf).2 b ↔
          r.holds b ∨ covers suf b) ∧
    (merge_next r suf).1.size + sizeSum (merge_next r suf).2 =
      r.size + sizeSum suf := by
  match suf with
  | [] =>
    have hm : merge_next r [] = (r, []) := rfl
    rw [hm]
    refine ⟨rfl, hr, ?_, ?_, ?_, ?_⟩
    · simp
    · simp
    · intro b
      exact Iff.rfl
    · rfl
  | y :: ys =>
    have hy_pos : 0 < y.size := hpos y (by simp)
    have hy_addr : r.addr ≤ y.addr := hhead y (by simp [Option.mem_def])
    have hy_sep : Sep r y := hd y (by simp)
    have hy_ge : r.stop ≤ y.addr := by
      rcases hy_sep with h | h
      · exact h
      · exfalso
        unfold Region.stop at *
        omega
    have hmif : merge_next r (y :: ys) =
        if y.addr = r.stop then (⟨r.addr, r.size + y.size⟩, ys)
        else (r, y :: ys) := rfl
    by_cases hy : y.addr = r.stop
    · -- merge with the next region
      have hm : merge_next r (y :: ys) = (⟨r.addr, r.size + y.size⟩, ys) := by
        rw [hmif, if_pos hy]
      rw [hm]
      have hstop : (Region.mk r.addr (r.size + y.size)).stop = y.stop := by
        unfold Region.stop at *
        simp only
        omega
      refine ⟨rfl, by simp only; omega, ?_, ?_, ?_, ?_⟩
      · rw [List.chain'_cons'] at hg ⊢
        refine ⟨?_, hg.2⟩
        intro z hz
        have := hg.1 z hz
        unfold RGap at *
        rw [hstop]
        exact this
      · intro x hx
        exact hpos x (by simp [hx])
      · intro b
        rw [covers_cons, holds_merge hy b]
        tauto
      · rw [sizeSum_cons]
        simp only
        omega
    · -- no merge
      have hm : merge_next r (y :: ys) = (r, y :: ys) := by
        rw [hmif, if_neg hy]
      rw [hm]
      have hlt : r.stop < y.addr := lt_of_le_of_ne hy_ge (fun h => hy h.symm)
      refine ⟨rfl, hr, ?_, hpos, fun b => Iff.rfl, by simp⟩
      rw [List.chain'_cons']
      exact ⟨fun z hz => by
        simp only [List.head?_cons, Option.mem_def, Option.some.injEq] at hz
        rw [← hz]
        exact hlt, hg⟩

/-- Membership in the destructor scan's prefix means the region lies
strictly below the chunk's address. -/
theorem mem_takeWhile_lt {r x : Region} {rs : List Region}
    (hx : x ∈ rs.takeWhile (fun y => decide (y.addr < r.addr))) :
    x.addr < r.addr := by
  have h := List.mem_takeWhile_imp hx
  simp only [decide_eq_true_eq] at h
  exact h

set_option maxHeartbeats 1000000 in
/-- Specification of one destructor insertion step: inserting a
positive chunk separated from every member of a gapped accumulated
list yields a gapped list with the union coverage and the summed
total size. -/
theorem insert_chunk_spec (r : Region) (rs : List Region)
    (hg : List.Chain' RGap rs)
    (hpos : ∀ x ∈ rs, 0 < x.size) (hr : 0 < r.size)
    (hd : ∀ x ∈ rs, Sep r x) :
    List.Chain' RGap (insert_chunk r rs) ∧
    (∀ x ∈ insert_chunk r rs, 0 < x.size) ∧
    (∀ b, covers (insert_chunk r rs) b ↔ r.holds b ∨ covers rs b) ∧
    sizeSum (insert_chunk r rs) = r.size + sizeSum rs := by
  have hsplit : rs.takeWhile (fun x => decide (x.addr < r.addr)) ++
      rs.dropWhile (fun x => decide (x.addr < r.addr)) = rs :=
    List.takeWhile_append_dropWhile _ _
  set pre := rs.takeWhile (fun x => decide (x.addr < r.addr)) with hpre
  set suf := rs.dropWhile (fun x => decide (x.addr < r.addr)) with hsuf
  have hpre_lt : ∀ x ∈ pre, x.addr < r.addr := by
    intro x hx
    rw [hpre] at hx
    exact mem_takeWhile_lt hx
  have hsuf_head : ∀ y ∈ suf.head?, r.addr ≤ y.addr := by
    intro y hy
    have hf := head_dropWhile_false (fun x => decide (x.addr < r.addr)) rs y hy
    simp only [decide_eq_false_iff_not, not_lt] at hf
    exact hf
  rw [← hsplit] at hg hpos hd
  obtain ⟨hg_pre, hg_suf, hg_cross⟩ := List.chain'_append.mp hg
  have hpos_pre : ∀ x ∈ pre, 0 < x.size := fun x hx => hpos x (by simp [hx])
  have hpos_suf : ∀ x ∈ suf, 0 < x.size := fun x hx => hpos x (by simp [hx])
  have hd_suf : ∀ x ∈ suf, Sep r x := fun x hx => hd x (by simp [hx])
  obtain ⟨hm_addr, hm_pos, hm_chain, hm_pos2, hm_cov, hm_sum⟩ :=
    merge_next_spec r suf hg_suf hpos_suf hr hd_suf hsuf_head
  match hgl : pre.getLast? with
  | none =>
    have hpre_nil : pre = [] := List.getLast?_eq_none_iff.mp hgl
    have hic : insert_chunk r rs =
        (merge_next r suf).1 :: (merge_next r suf).2 := by
      unfold insert_chunk
      rw [← hpre, ← hsuf, hgl]
    rw [hic]
    rw [hpre_nil, List.nil_append] at hsplit
    refine ⟨hm_chain, ?_, ?_, ?_⟩
    · intro x hx
      rcases List.mem_cons.mp hx with h | h
      · rw [h]; exact hm_pos
      · exact hm_pos2 x h
    · intro b
      rw [← hsplit, covers_cons]
      exact hm_cov b
    · rw [← hsplit, sizeSum_cons]
      exact hm_sum
  | some p =>
    have hpre_ne : pre ≠ [] := by
      intro h
      rw [h] at hgl
      simp at hgl
    have hp_eq : pre.getLast hpre_ne = p := by
      have hh := List.getLast?_eq_getLast pre hpre_ne
      rw [hgl] at hh
      exact (Option.some.injEq _ _ ▸ hh).symm
    have hdl : pre.dropLast ++ [p] = pre := by
      rw [← hp_eq]
      exact List.dropLast_append_getLast hpre_ne
    have hp_mem : p ∈ pre := by
      rw [← hdl]
      simp
    have hp_lt : p.addr < r.addr := hpre_lt p hp_mem
    have hp_stop : p.stop ≤ r.addr := by
      rcases hd p (by simp [hp_mem]) with h | h
      · exfalso
        unfold Region.stop at *
        omega
      · exact h
    have hg_dl : List.Chain' RGap pre.dropLast :=
      hg_pre.sublist (List.dropLast_sublist pre)
    have hg_dl_last : ∀ x ∈ pre.dropLast.getLast?, RGap x p := by
      have hh := List.chain'_append.mp (hdl ▸ hg_pre)
      intro x hx
      exact hh.2.2 x hx p (by simp [Option.mem_def])
    have hcov_pre : ∀ bb, covers pre bb ↔ covers pre.dropLast bb ∨ p.holds bb := by
      intro bb
      nth_rewrite 1 [← hdl]
      rw [covers_append, covers_cons]
      have hnil : ¬ covers [] bb := covers_nil
      tauto
    have hsum_pre : sizeSum pre = sizeSum pre.dropLast + p.size := by
      nth_rewrite 1 [← hdl]
      rw [sizeSum_append, sizeSum_cons]
      unfold sizeSum
      simp
    by_cases hps : p.stop = r.addr
    · -- merge with the previous region
      have hic : insert_chunk r rs = pre.dropLast ++
          Region.mk p.addr (p.size + (merge_next r suf).1.size) ::
          (merge_next r suf).2 := by
        unfold insert_chunk
        rw [← hpre, ← hsuf, hgl]
        exact if_pos hps
      rw [hic]
      have hmg_size : (Region.mk p.addr (p.size + (merge_next r suf).1.size)).size =
          p.size + (merge_next r suf).1.size := rfl
      have hmg_stop : (Region.mk p.addr (p.size + (merge_next r suf).1.size)).stop =
          (merge_next r suf).1.stop := by
        unfold Region.stop at *
        simp only
        omega
      constructor
      · rw [List.chain'_append]
        refine ⟨hg_dl, ?_, ?_⟩
        · rw [List.chain'_cons'] at hm_chain ⊢
          refine ⟨?_, hm_chain.2⟩
          intro z hz
          have hh := hm_chain.1 z hz
          unfold RGap at *
          rw [hmg_stop]
          exact hh
        · intro x hx y hy
          simp only [List.head?_cons, Option.mem_def, Option.some.injEq] at hy
          rw [← hy]
          have hh := hg_dl_last x hx
          unfold RGap at *
          simp only
          exact hh
      refine ⟨?_, ?_, ?_⟩
      · intro x hx
        rcases List.mem_append.mp hx with h | h
        · exact hpos_pre x (List.mem_of_mem_dropLast h)
        · rcases List.mem_cons.mp h with h | h
          · rw [h, hmg_size]
            omega
          · exact hm_pos2 x h
      · intro b
        have hmerge : (Region.mk p.addr (p.size + (merge_next r suf).1.size)).holds b ↔
            p.holds b ∨ (merge_next r suf).1.holds b :=
          holds_merge (by rw [hm_addr, ← hps]) b
        rw [covers_append, covers_cons, hmerge, ← hsplit, covers_append, hcov_pre b]
        have hh := hm_cov b
        tauto
      · rw [sizeSum_append, sizeSum_cons, hmg_size, ← hsplit, sizeSum_append,
          hsum_pre]
        omega
    · -- no merge with the previous region
      have hic : insert_chunk r rs = pre ++
          (merge_next r suf).1 :: (merge_next r suf).2 := by
        unfold insert_chunk
        rw [← hpre, ← hsuf, hgl]
        exact if_neg hps
      rw [hic]
      have hp_rgap : RGap p (merge_next r suf).1 := by
        unfold RGap
        rw [hm_addr]
        exact lt_of_le_of_ne hp_stop hps
      constructor
      · rw [List.chain'_append]
        refine ⟨hg_pre, hm_chain, ?_⟩
        intro x hx y hy
        rw [hgl] at hx
        simp only [Option.mem_def, Option.some.injEq] at hx
        simp only [List.head?_cons, Option.mem_def, Option.some.injEq] at hy
        rw [← hy, ← hx]
        exact hp_rgap
      refine ⟨?_, ?_, ?_⟩
      · intro x hx
        rcases List.mem_append.mp hx with h | h
        · exact hpos_pre x h
        · rcases List.mem_cons.mp h with h | h
          · rw [h]; exact hm_pos
          · exact hm_pos2 x h
      · intro b
        rw [covers_append, covers_cons, ← hsplit, covers_append]
        have hh := hm_cov b
        tauto
      · rw [sizeSum_append, sizeSum_cons, ← hsplit, sizeSum_append]
        omega

/-- Folding a list of pairwise separated positive chunks into a gapped
accumulated list keeps the list gapped (sorted by address with any two
touching regions merged) and preserves both the byte coverage and the
total byte count. -/
theorem merge_regions_spec : ∀ (chunks init : List Region),
    List.Chain' RGap init →
    (∀ x ∈ init ++ chunks, 0 < x.size) →
    List.Pairwise Sep (init ++ chunks) →
    List.Chain' RGap (merge_regions chunks init) ∧
    (∀ x ∈ merge_regions chunks init, 0 < x.size) ∧
    (∀ b, covers (merge_regions chunks init) b ↔ covers (init ++ chunks) b) ∧
    sizeSum (merge_regions chunks init) = sizeSum (init ++ chunks) := by
  intro chunks
  induction chunks with
  | nil =>
    intro init hg hpos hsep
    rw [List.append_nil] at hpos
    exact ⟨hg, hpos, fun b => by rw [List.append_nil]; exact Iff.rfl,
      by rw [List.append_nil]; rfl⟩
  | cons c cs ih =>
    intro init hg hpos hsep
    obtain ⟨hsep_init, hsep_ccs, hsep_cross⟩ := List.pairwise_append.mp hsep
    have hd : ∀ x ∈ init, Sep c x := fun x hx =>
      (hsep_cross x hx c (by simp)).symm
    have hpos_init : ∀ x ∈ init, 0 < x.size := fun x hx => hpos x (by simp [hx])
    have hc_pos : 0 < c.size := hpos c (by simp)
    obtain ⟨ig, ipos, icov, isum⟩ :=
      insert_chunk_spec c init hg hpos_init hc_pos hd
    have hfold : merge_regions (c :: cs) init =
        merge_regions cs (insert_chunk c init) := rfl
    rw [hfold]
    have hpos' : ∀ x ∈ insert_chunk c init ++ cs, 0 < x.size := by
      intro x hx
      rcases List.mem_append.mp hx with h | h
      · exact ipos x h
      · exact hpos x (by simp [h])
    have hsep' : List.Pairwise Sep (insert_chunk c init ++ cs) := by
      rw [List.pairwise_append]
      refine ⟨(List.chain'_iff_pairwise.mp ig).imp Sep.of_rgap,
        (List.pairwise_cons.mp hsep_ccs).2, ?_⟩
      intro x hx y hy
      apply sep_of_no_common_byte (ipos x hx) (hpos y (by simp [hy]))
      intro b hb
      obtain ⟨hxb, hyb⟩ := hb
      have hcb : covers (insert_chunk c init) b := ⟨x, hx, hxb⟩
      rcases (icov b).mp hcb with h | h
      · exact Sep.not_holds ((List.pairwise_cons.mp hsep_ccs).1 y hy) b h hyb
      · obtain ⟨z, hz, hzb⟩ := h
        exact Sep.not_holds (hsep_cross z hz y (by simp [hy])) b hzb hyb
    obtain ⟨rg, rpos, rcov, rsum⟩ := ih (insert_chunk c init) ig hpos' hsep'
    refine ⟨rg, rpos, ?_, ?_⟩
    · intro b
      rw [rcov b, covers_append, icov b, covers_append, covers_cons]
      tauto
    · rw [rsum, sizeSum_append, isum, sizeSum_append, sizeSum_cons]
      omega

/-- Claim C1: at destruction time, with no concurrent calls in flight,
the destructor of the block cache combines the current head's
remaining region and every node of the free-chunk stack into a list
sorted by address in which any two regions whose address ranges touch
have been merged (`Chain' RGap`, strict gaps between consecutive
regions); that list is exactly the sequence of regions passed to the
upstream's `deallocate`, each exactly once (the output regions are
pairwise separated, so no byte is deallocated twice), and its total
byte count equals the total byte count of the input regions.  When the
destructor-time state accounts for every byte previously obtained from
upstream (the balanced-history invariant: head region plus free chunks
partition the obtained blocks), this is exactly the conservation
property: destructor-issued upstream deallocations total the bytes
obtained from upstream, and no byte is deallocated twice.  The
hypotheses — positive region sizes and pairwise separation of head
region and free chunks — hold in every state reachable through the
allocator's interface. -/
theorem claim_cache_dtor_merge_conservation (st : CacheState)
    (hpos : ∀ r ∈ cache_dtor_init st ++ cache_free_regions st, 0 < r.size)
    (hsep : List.Pairwise Sep (cache_dtor_init st ++ cache_free_regions st)) :
    List.Chain' RGap (cache_dtor_regions st) ∧
    List.Pairwise Sep (cache_dtor_regions st) ∧
    (∀ b, covers (cache_dtor_regions st) b ↔
      covers (cache_dtor_init st ++ cache_free_regions st) b) ∧
    sizeSum (cache_dtor_regions st) =
      sizeSum (cache_dtor_init st ++ cache_free_regions st) := by
  have hg : List.Chain' RGap (cache_dtor_init st) := by
    unfold cache_dtor_init
    split
    · exact List.chain'_singleton _
    · exact List.chain'_nil
  obtain ⟨h1, h2, h3, h4⟩ :=
    merge_regions_spec (cache_free_regions st) (cache_dtor_init st) hg hpos hsep
  exact ⟨h1, pairwise_sep_of_chain' h1, h3, h4⟩

/-- Witness for C1: a state whose head region is `[100, 132)` and
whose free stack holds `[164, 196)` and `[132, 164)`; the destructor
merges all three into the single region `[100, 196)` and the total
byte count is conserved. -/
theorem claim_cache_dtor_merge_conservation_witness :
    sizeSum (cache_dtor_regions ⟨100, 32, [⟨164, 32, 0⟩, ⟨132, 32, 0⟩], 0⟩) =
      sizeSum (cache_dtor_init ⟨100, 32, [⟨164, 32, 0⟩, ⟨132, 32, 0⟩], 0⟩ ++
        cache_free_regions ⟨100, 32, [⟨164, 32, 0⟩, ⟨132, 32, 0⟩], 0⟩) :=
  (claim_cache_dtor_merge_conservation ⟨100, 32, [⟨164, 32, 0⟩, ⟨132, 32, 0⟩], 0⟩
    (by decide) (by decide)).2.2.2

/-! Properties of `ceil_allocation_size`. -/

theorem ceil_eq_granular (u : UpstreamSpec) (hg : u.granular = true) (x : Nat) :
    ceil_allocation_size u x =
      x + (if x % u.min_size > 0 then u.min_size - x % u.min_size else 0) := by
  unfold ceil_allocation_size
  rw [if_pos hg]

theorem ceil_eq_bound (u : UpstreamSpec) (hg : ¬ u.granular = true)
    (hb : u.bound = true) (x : Nat) :
    ceil_allocation_size u x = Nat.max x u.min_size := by
  unfold ceil_allocation_size
  rw [if_neg hg, if_pos hb]

theorem ceil_eq_plain (u : UpstreamSpec) (hg : ¬ u.granular = true)
    (hb : ¬ u.bound = true) (x : Nat) : ceil_allocation_size u x = x := by
  unfold ceil_allocation_size
  rw [if_neg hg, if_neg hb]

/-- Rounding up to a multiple of `m`: the granular branch of
`ceil_allocation_size` produces the least multiple of `m` at or above
the input. -/
theorem ceil_granular_spec (m size : Nat) (hm : 0 < m) :
    m ∣ (size + (if size % m > 0 then m - size % m else 0)) ∧
    size ≤ size + (if size % m > 0 then m - size % m else 0) ∧
    (∀ t, size ≤ t → m ∣ t →
      size + (if size % m > 0 then m - size % m else 0) ≤ t) := by
  obtain ⟨r, hre⟩ : ∃ r, size % m = r := ⟨_, rfl⟩
  have hmod : r < m := hre ▸ Nat.mod_lt _ hm
  have hrs : r ≤ size := hre ▸ Nat.mod_le size m
  have hdm : m ∣ size - r := hre ▸ Nat.dvd_sub_mod size
  rw [hre]
  by_cases hr : r > 0
  · rw [if_pos hr]
    refine ⟨?_, by omega, ?_⟩
    · have h1 : size + (m - r) = (size - r) + m := by omega
      rw [h1]
      exact Nat.dvd_add hdm dvd_rfl
    · intro t ht hdt
      by_contra hlt
      push_neg at hlt
      have h2 : m ∣ t - (size - r) := Nat.dvd_sub' hdt hdm
      have h4 : 0 < t - (size - r) := by omega
      have h5 := Nat.le_of_dvd h4 h2
      omega
  · rw [if_neg hr]
    refine ⟨?_, by omega, fun t ht _ => by omega⟩
    have h6 : size + 0 = size := rfl
    rw [h6]
    exact Nat.dvd_of_mod_eq_zero (by omega)

theorem ceil_allocation_size_le (u : UpstreamSpec) (hu : 0 < u.min_size)
    (size : Nat) : size ≤ ceil_allocation_size u size := by
  by_cases hg : u.granular = true
  · rw [ceil_eq_granular u hg]
    exact (ceil_granular_spec u.min_size size hu).2.1
  · by_cases hb : u.bound = true
    · rw [ceil_eq_bound u hg hb]
      exact Nat.le_max_left _ _
    · rw [ceil_eq_plain u hg hb]

theorem ceil_allocation_size_mono (u : UpstreamSpec) (hu : 0 < u.min_size)
    {x y : Nat} (h : x ≤ y) :
    ceil_allocation_size u x ≤ ceil_allocation_size u y := by
  by_cases hg : u.granular = true
  · rw [ceil_eq_granular u hg x, ceil_eq_granular u hg y]
    obtain ⟨hdy, hley, _⟩ := ceil_granular_spec u.min_size y hu
    exact (ceil_granular_spec u.min_size x hu).2.2 _ (by omega) hdy
  · by_cases hb : u.bound = true
    · rw [ceil_eq_bound u hg hb x, ceil_eq_bound u hg hb y]
      exact max_le_max h (Nat.le_refl _)
    · rw [ceil_eq_plain u hg hb x, ceil_eq_plain u hg hb y]
      exact h

theorem ceil_allocation_size_idem (u : UpstreamSpec) (hu : 0 < u.min_size)
    (x : Nat) : ceil_allocation_size u (ceil_allocation_size u x) =
      ceil_allocation_size u x := by
  have h1 := ceil_allocation_size_le u hu (ceil_allocation_size u x)
  have h2 : ceil_allocation_size u (ceil_allocation_size u x) ≤
      ceil_allocation_size u x := by
    by_cases hg : u.granular = true
    · have hd : u.min_size ∣ ceil_allocation_size u x := by
        rw [ceil_eq_granular u hg x]
        exact (ceil_granular_spec u.min_size x hu).1
      rw [ceil_eq_granular u hg (ceil_allocation_size u x)]
      exact (ceil_granular_spec u.min_size (ceil_allocation_size u x) hu).2.2 _
        (Nat.le_refl _) hd
    · by_cases hb : u.bound = true
      · rw [ceil_eq_bound u hg hb x, ceil_eq_bound u hg hb (Nat.max x u.min_size)]
        exact max_le (Nat.le_refl _) (le_max_right x u.min_size)
      · rw [ceil_eq_plain u hg hb x, ceil_eq_plain u hg hb x]
  omega

/-- The key comparison of the step-down policy: any ceiled candidate
at or above the requested size is at or above the ceiled requested
size. -/
theorem ceil_le_ceil_of_le (u : UpstreamSpec) (hu : 0 < u.min_size)
    {size n : Nat} (h : size ≤ ceil_allocation_size u n) :
    ceil_allocation_size u size ≤ ceil_allocation_size u n := by
  have h1 := ceil_allocation_size_mono u hu h
  rw [ceil_allocation_size_idem u hu n] at h1
  exact h1

/-! Properties of the step-down candidate sequence. -/

/-- One geometric step down strictly decreases while staying at or
above `min_block_size`. -/
theorem get_prev_lt (c : CacheConfig) (hc : c.Valid) {n : Nat}
    (hmin : c.min_block_size < n) (hmax : n ≤ c.max_block_size) :
    get_prev_block_size c n < n ∧
    c.min_block_size ≤ get_prev_block_size c n := by
  obtain ⟨hpow, h1, h2, hm⟩ := hc
  unfold get_prev_block_size
  by_cases he : c.min_block_size = c.max_block_size
  · rw [if_pos he]
    omega
  · rw [if_neg he]
    have hmult : 2 ≤ c.block_size_multiplier := by
      rcases hm with hm | hm
      · exact absurd hm he
      · exact hm
    have hgp : 0 < c.granularity := hpow.pos
    have hn2 : 2 ≤ n := by omega
    have hdiv : (n + (c.block_size_multiplier - 1)) / c.block_size_multiplier < n := by
      apply Nat.div_lt_of_lt_mul
      have h4 : n + c.block_size_multiplier ≤ n * c.block_size_multiplier :=
        Nat.add_le_mul hn2 hmult
      have h5 : n * c.block_size_multiplier = c.block_size_multiplier * n :=
        Nat.mul_comm _ _
      omega
    exact ⟨max_lt hdiv (by omega), le_max_right _ _⟩

/-- The fuel of `step_seq_aux` is irrelevant once it dominates the
number of strict decreases down to `min_block_size`. -/
theorem step_seq_aux_irrel (c : CacheConfig) (hc : c.Valid) :
    ∀ (f₁ : Nat) {f₂ n : Nat}, c.min_block_size ≤ n → n ≤ c.max_block_size →
    n - c.min_block_size < f₁ → n - c.min_block_size < f₂ →
    step_seq_aux c f₁ n = step_seq_aux c f₂ n := by
  intro f₁
  induction f₁ with
  | zero => intro f₂ n hmin hmax h1 h2; omega
  | succ f ih =>
    intro f₂ n hmin hmax h1 h2
    match f₂, h2 with
    | f₂ + 1, h2 =>
      by_cases hn : n = c.min_block_size
      · simp only [step_seq_aux, if_pos hn]
      · simp only [step_seq_aux, if_neg hn]
        obtain ⟨hlt, hge⟩ := get_prev_lt c hc (by omega) hmax
        rw [@ih f₂ (get_prev_block_size c n) hge (by omega) (by omega) (by omega)]

/-- The head of the fueled candidate sequence is its start. -/
theorem step_seq_aux_head (c : CacheConfig) (f m : Nat) :
    (step_seq_aux c f m).head? = some m := by
  match f with
  | 0 => rfl
  | f + 1 =>
    simp only [step_seq_aux]
    split <;> rfl

/-- Unfolding of the candidate sequence above the minimum. -/
theorem step_seq_unfold (c : CacheConfig) (hc : c.Valid) {n : Nat}
    (hmin : c.min_block_size ≤ n) (hmax : n ≤ c.max_block_size)
    (hne : n ≠ c.min_block_size) :
    step_seq c n = n :: step_seq c (get_prev_block_size c n) := by
  obtain ⟨hlt, hge⟩ := get_prev_lt c hc (by omega) hmax
  have hgran : 0 < c.granularity := hc.1.pos
  have hminpos : 0 < c.min_block_size := by
    have h := hc.2.1
    omega
  obtain ⟨k, rfl⟩ : ∃ k, n = k + 1 := ⟨n - 1, by omega⟩
  unfold step_seq
  have h0 : step_seq_aux c (k + 1) (k + 1) =
      if (k + 1) = c.min_block_size then [k + 1]
      else (k + 1) :: step_seq_aux c k (get_prev_block_size c (k + 1)) := rfl
  rw [h0, if_neg hne]
  rw [@step_seq_aux_irrel c hc k (get_prev_block_size c (k + 1))
    (get_prev_block_size c (k + 1)) hge (by omega) (by omega) (by omega)]

/-- The start is a member of its own candidate sequence. -/
theorem step_seq_self_mem (c : CacheConfig) (n : Nat) : n ∈ step_seq c n := by
  have hh := step_seq_aux_head c n n
  unfold step_seq
  match hl : step_seq_aux c n n with
  | [] =>
    rw [hl] at hh
    simp at hh
  | a :: t =>
    rw [hl] at hh
    simp only [List.head?_cons, Option.some.injEq] at hh
    rw [hh]
    simp

/-- The first candidate considered is the head of the sequence. -/
theorem step_seq_take_one (c : CacheConfig) (n : Nat) :
    (step_seq c n).take 1 = [n] := by
  have hh := step_seq_aux_head c n n
  unfold step_seq
  match hl : step_seq_aux c n n with
  | [] =>
    rw [hl] at hh
    simp at hh
  | a :: t =>
    rw [hl] at hh
    simp only [List.head?_cons, Option.some.injEq] at hh
    rw [hh]
    rfl

/-- The candidate sequence is strictly decreasing. -/
theorem step_seq_aux_decreasing (c : CacheConfig) (hc : c.Valid) :
    ∀ (fuel n : Nat), c.min_block_size ≤ n → n ≤ c.max_block_size →
    List.Chain' (fun a b => b < a) (step_seq_aux c fuel n) := by
  intro fuel
  induction fuel with
  | zero => intro n _ _; exact List.chain'_singleton _
  | succ f ih =>
    intro n hmin hmax
    by_cases hn : n = c.min_block_size
    · simp only [step_seq_aux, if_pos hn]
      exact List.chain'_singleton _
    · simp only [step_seq_aux, if_neg hn]
      obtain ⟨hlt, hge⟩ := get_prev_lt c hc (by omega) hmax
      rw [List.chain'_cons']
      refine ⟨?_, ih _ hge (by omega)⟩
      intro y hy
      rw [step_seq_aux_head c f (get_prev_block_size c n)] at hy
      simp only [Option.mem_def, Option.some.injEq] at hy
      omega

/-- The hint-derived first candidate lies within the configured block
bounds (the hint is 0 or a previously recorded candidate). -/
theorem get_next_bounds (c : CacheConfig) (hc : c.Valid) (lbs : Nat)
    (hlbs : lbs = 0 ∨ (c.min_block_size ≤ lbs ∧ lbs ≤ c.max_block_size)) :
    c.min_block_size ≤ get_next_block_size c lbs ∧
    get_next_block_size c lbs ≤ c.max_block_size := by
  obtain ⟨hpow, h1, h2, hm⟩ := hc
  unfold get_next_block_size
  by_cases he : c.min_block_size = c.max_block_size
  · rw [if_pos he]
    omega
  · rw [if_neg he]
    by_cases hz : lbs = 0
    · rw [if_pos hz]
      omega
    · rw [if_neg hz]
      rcases hlbs with h | hb
      · exact absurd h hz
      refine ⟨le_min ?_ h2, min_le_right _ _⟩
      calc c.min_block_size ≤ lbs := hb.1
        _ ≤ lbs * c.block_size_multiplier := by
          have hmult : 2 ≤ c.block_size_multiplier := by
            rcases hm with hm | hm
            · exact absurd hm he
            · exact hm
          calc lbs = lbs * 1 := by ring
            _ ≤ lbs * c.block_size_multiplier :=
              Nat.mul_le_mul_left lbs (by omega)

/-- One unfolding step of the retry loop. -/
theorem upstream_allocate_loop_succ (c : CacheConfig) (u : UpstreamSpec)
    (oracle : Oracle) (size alignment lbs fuel nextSize na as : Nat) :
    upstream_allocate_loop c u oracle size alignment lbs
      (fuel + 1) nextSize na as =
    match oracle as (Nat.max alignment c.granularity) with
    | some ptr => (some (ptr, as), [as], nextSize)
    | none =>
      if na < as then (none, [as], lbs)
      else if nextSize = c.min_block_size then
        (none, [as], if alignment ≤ c.granularity then 0 else lbs)
      else
        if ceil_allocation_size u (get_prev_block_size c nextSize) < size then
          (none, [as],
           if alignment ≤ c.granularity then get_prev_block_size c nextSize
           else lbs)
        else
          ((upstream_allocate_loop c u oracle size alignment lbs fuel
              (get_prev_block_size c nextSize)
              (ceil_allocation_size u (get_prev_block_size c nextSize))
              (ceil_allocation_size u (get_prev_block_size c nextSize))).1,
           as :: (upstream_allocate_loop c u oracle size alignment lbs fuel
              (get_prev_block_size c nextSize)
              (ceil_allocation_size u (get_prev_block_size c nextSize))
              (ceil_allocation_size u (get_prev_block_size c nextSize))).2.1,
           (upstream_allocate_loop c u oracle size alignment lbs fuel
              (get_prev_block_size c nextSize)
              (ceil_allocation_size u (get_prev_block_size c nextSize))
              (ceil_allocation_size u (get_prev_block_size c nextSize))).2.2) := by
  cases h : oracle as (Nat.max alignment c.granularity) with
  | some ptr =>
    simp only [upstream_allocate_loop, h]
  | none =>
    simp only [upstream_allocate_loop, h]

/-- Invariant specification of the `upstream_allocate` retry loop in
the normal regime, where the candidate's ceiled allocation size covers
the request: every upstream request is at least the ceiled requested
size, the trace of requests is the ceiled image of an initial segment
of the geometric step-down sequence, and on failure the hint is left
unchanged for an overaligned request, reset to zero when the step-down
bottomed out at `min_block_size`, and otherwise set to the first
candidate whose ceiled size falls below the request. -/
theorem upstream_allocate_loop_spec (c : CacheConfig) (u : UpstreamSpec)
    (oracle : Oracle) (size alignment lbs : Nat) (hc : c.Valid)
    (hu : 0 < u.min_size) :
    ∀ (fuel nextSize : Nat),
    c.min_block_size ≤ nextSize → nextSize ≤ c.max_block_size →
    nextSize - c.min_block_size < fuel →
    size ≤ ceil_allocation_size u nextSize →
    (∀ t ∈ (upstream_allocate_loop c u oracle size alignment lbs fuel nextSize
        (ceil_allocation_size u nextSize) (ceil_allocation_size u nextSize)).2.1,
      ceil_allocation_size u size ≤ t) ∧
    (∃ k, (upstream_allocate_loop c u oracle size alignment lbs fuel nextSize
        (ceil_allocation_size u nextSize) (ceil_allocation_size u nextSize)).2.1 =
      ((step_seq c nextSize).take k).map (ceil_allocation_size u)) ∧
    ((upstream_allocate_loop c u oracle size alignment lbs fuel nextSize
        (ceil_allocation_size u nextSize) (ceil_allocation_size u nextSize)).1 =
          none →
      (c.granularity < alignment →
        (upstream_allocate_loop c u oracle size alignment lbs fuel nextSize
          (ceil_allocation_size u nextSize)
          (ceil_allocation_size u nextSize)).2.2 = lbs) ∧
      (alignment ≤ c.granularity →
        (upstream_allocate_loop c u oracle size alignment lbs fuel nextSize
          (ceil_allocation_size u nextSize)
          (ceil_allocation_size u nextSize)).2.2 = 0 ∨
        ((upstream_allocate_loop c u oracle size alignment lbs fuel nextSize
            (ceil_allocation_size u nextSize)
            (ceil_allocation_size u nextSize)).2.2 ∈ step_seq c nextSize ∧
          ceil_allocation_size u
            ((upstream_allocate_loop c u oracle size alignment lbs fuel nextSize
              (ceil_allocation_size u nextSize)
              (ceil_allocation_size u nextSize)).2.2) < size))) := by
  intro fuel
  induction fuel with
  | zero =>
    intro nextSize hmin hmax hfuel hsz
    omega
  | succ fuel ih =>
    intro nextSize hmin hmax hfuel hsz
    rw [upstream_allocate_loop_succ]
    have hceil : ceil_allocation_size u size ≤ ceil_allocation_size u nextSize :=
      ceil_le_ceil_of_le u hu hsz
    cases horacle :
        oracle (ceil_allocation_size u nextSize) (Nat.max alignment c.granularity) with
    | some ptr =>
      simp only
      refine ⟨?_, ⟨1, ?_⟩, ?_⟩
      · intro t ht
        simp only [List.mem_singleton] at ht
        rw [ht]
        exact hceil
      · rw [step_seq_take_one]
        rfl
      · intro h
        simp at h
    | none =>
      simp only
      rw [if_neg (lt_irrefl _)]
      by_cases hn : nextSize = c.min_block_size
      · rw [if_pos hn]
        refine ⟨?_, ⟨1, ?_⟩, ?_⟩
        · intro t ht
          simp only [List.mem_singleton] at ht
          rw [ht]
          exact hceil
        · rw [step_seq_take_one]
          rfl
        · intro _
          constructor
          · intro hal
            rw [if_neg (by omega)]
          · intro hal
            left
            rw [if_pos hal]
      · rw [if_neg hn]
        obtain ⟨hlt, hge⟩ := get_prev_lt c hc (by omega) hmax
        have hstep : step_seq c nextSize =
            nextSize :: step_seq c (get_prev_block_size c nextSize) :=
          step_seq_unfold c hc hmin hmax hn
        by_cases hna : ceil_allocation_size u (get_prev_block_size c nextSize) < size
        · rw [if_pos hna]
          refine ⟨?_, ⟨1, ?_⟩, ?_⟩
          · intro t ht
            simp only [List.mem_singleton] at ht
            rw [ht]
            exact hceil
          · rw [step_seq_take_one]
            rfl
          · intro _
            constructor
            · intro hal
              rw [if_neg (by omega)]
            · intro hal
              right
              rw [if_pos hal]
              refine ⟨?_, hna⟩
              rw [hstep]
              exact List.mem_cons_of_mem _
                (step_seq_self_mem c (get_prev_block_size c nextSize))
        · rw [if_neg hna]
          obtain ⟨ihA, ⟨k, ihB⟩, ihC⟩ := ih (get_prev_block_size c nextSize)
            hge (by omega) (by omega) (by omega)
          refine ⟨?_, ⟨k + 1, ?_⟩, ?_⟩
          · intro t ht
            simp only [List.mem_cons] at ht
            rcases ht with ht | ht
            · rw [ht]
              exact hceil
            · exact ihA t ht
          · simp only
            rw [ihB, hstep]
            rfl
          · intro h
            simp only at h
            obtain ⟨ihC1, ihC2⟩ := ihC h
            constructor
            · exact ihC1
            · intro hal
              rcases ihC2 hal with hh | ⟨hmem, hlt2⟩
              · left
                exact hh
              · right
                refine ⟨?_, hlt2⟩
                rw [hstep]
                exact List.mem_cons_of_mem _ hmem

/-- `upstream_allocate` enters the retry loop at the hint-derived
candidate, with fuel dominating the step-down length. -/
theorem upstream_allocate_eq (c : CacheConfig) (u : UpstreamSpec)
    (oracle : Oracle) (size alignment lbs : Nat) :
    upstream_allocate c u oracle size alignment lbs =
    upstream_allocate_loop c u oracle size alignment lbs
      (get_next_block_size c lbs + 1) (get_next_block_size c lbs)
      (ceil_allocation_size u (get_next_block_size c lbs))
      (if ceil_allocation_size u (get_next_block_size c lbs) ≥ size
       then ceil_allocation_size u (get_next_block_size c lbs)
       else ceil_allocation_size u size) := rfl

/-- Claim C3, amended to the code's behavior.  For every upstream
allocation attempt of the cache (with a valid configuration, a
positive upstream minimum size, and a hint that is either zero or a
previously recorded candidate within the configured bounds): (a) no
upstream allocate call is ever issued with a size smaller than the
requested size after ceiling to the upstream's minimum/granularity;
(b) the candidate block sizes form the strictly decreasing geometric
step-down sequence starting from the next-block-size hint, and the
upstream request sizes are the ceiled image of an initial segment of
that sequence — except that when even the first candidate's ceiled
size is below the requested size, a single attempt of exactly the
ceiled requested size is made; and (c) when the call fails, the hint
is left unchanged if the requested alignment exceeds the granularity
or if the single oversized attempt was made, and otherwise it is
either reset to zero ("start over", only when the step-down bottomed
out at `min_block_size`) or set to the first step-down candidate whose
ceiled size falls below the requested size. -/
theorem claim_cache_stepdown_policy (c : CacheConfig) (u : UpstreamSpec)
    (oracle : Oracle) (size alignment lbs : Nat)
    (hc : c.Valid) (hu : 0 < u.min_size)
    (hlbs : lbs = 0 ∨ (c.min_block_size ≤ lbs ∧ lbs ≤ c.max_block_size)) :
    (∀ t ∈ (upstream_allocate c u oracle size alignment lbs).2.1,
      ceil_allocation_size u size ≤ t) ∧
    List.Chain' (fun a b => b < a) (step_seq c (get_next_block_size c lbs)) ∧
    (if ceil_allocation_size u (get_next_block_size c lbs) < size
     then (upstream_allocate c u oracle size alignment lbs).2.1 =
       [ceil_allocation_size u size] ∨
       (upstream_allocate c u oracle size alignment lbs).2.1 = []
     else ∃ k, (upstream_allocate c u oracle size alignment lbs).2.1 =
       ((step_seq c (get_next_block_size c lbs)).take k).map
         (ceil_allocation_size u)) ∧
    ((upstream_allocate c u oracle size alignment lbs).1 = none →
      (c.granularity < alignment →
        (upstream_allocate c u oracle size alignment lbs).2.2 = lbs) ∧
      (ceil_allocation_size u (get_next_block_size c lbs) < size →
        (upstream_allocate c u oracle size alignment lbs).2.2 = lbs) ∧
      (alignment ≤ c.granularity →
        ¬ ceil_allocation_size u (get_next_block_size c lbs) < size →
        (upstream_allocate c u oracle size alignment lbs).2.2 = 0 ∨
        ((upstream_allocate c u oracle size alignment lbs).2.2 ∈
            step_seq c (get_next_block_size c lbs) ∧
          ceil_allocation_size u
            ((upstream_allocate c u oracle size alignment lbs).2.2) < size))) := by
  obtain ⟨hmin, hmax⟩ := get_next_bounds c hc lbs hlbs
  have hdec : List.Chain' (fun a b => b < a)
      (step_seq c (get_next_block_size c lbs)) :=
    step_seq_aux_decreasing c hc _ _ hmin hmax
  rw [upstream_allocate_eq]
  by_cases hna : ceil_allocation_size u (get_next_block_size c lbs) ≥ size
  · rw [if_pos hna]
    obtain ⟨hA, hB, hC⟩ := upstream_allocate_loop_spec c u oracle size alignment
      lbs hc hu (get_next_block_size c lbs + 1) (get_next_block_size c lbs)
      hmin hmax (by omega) hna
    refine ⟨hA, hdec, ?_, ?_⟩
    · rw [if_neg (by omega)]
      exact hB
    · intro h
      obtain ⟨hC1, hC2⟩ := hC h
      exact ⟨hC1, fun hcon => absurd hcon (by omega), fun hal _ => hC2 hal⟩
  · rw [if_neg hna]
    push_neg at hna
    have hlt : ceil_allocation_size u (get_next_block_size c lbs) <
        ceil_allocation_size u size :=
      lt_of_lt_of_le hna (ceil_allocation_size_le u hu size)
    rw [upstream_allocate_loop_succ]
    cases horacle :
        oracle (ceil_allocation_size u size) (Nat.max alignment c.granularity) with
    | some ptr =>
      simp only
      refine ⟨?_, hdec, ?_, ?_⟩
      · intro t ht
        simp only [List.mem_singleton] at ht
        omega
      · rw [if_pos hna]
        exact Or.inl (by trivial)
      · intro h
        simp at h
    | none =>
      simp only
      rw [if_pos hlt]
      refine ⟨?_, hdec, ?_, ?_⟩
      · intro t ht
        simp only [List.mem_singleton] at ht
        omega
      · rw [if_pos hna]
        left
        rfl
      · intro _
        exact ⟨fun _ => rfl, fun _ => rfl, fun _ hcon => absurd hna hcon⟩

/-- Witness for the amended C3: the policy applied with a valid
configuration (granularity 32, blocks 64 to 256, multiplier 2),
trivial upstream, always-failing oracle, alignment 32 and zero
hint. -/
theorem claim_cache_stepdown_policy_witness :
    (CacheConfig.Valid ⟨32, 64, 256, 2⟩ ∧ 0 < (1 : Nat) ∧
      ((0 : Nat) = 0 ∨ ((64 : Nat) ≤ 0 ∧ (0 : Nat) ≤ 256))) ∧
    ((∀ t ∈ (upstream_allocate ⟨32, 64, 256, 2⟩ ⟨false, false, 1, 16⟩
        (fun _ _ => none) 64 32 0).2.1,
        ceil_allocation_size ⟨false, false, 1, 16⟩ 64 ≤ t) ∧
    List.Chain' (fun a b => b < a)
      (step_seq ⟨32, 64, 256, 2⟩ (get_next_block_size ⟨32, 64, 256, 2⟩ 0)) ∧
    (if ceil_allocation_size ⟨false, false, 1, 16⟩
         (get_next_block_size ⟨32, 64, 256, 2⟩ 0) < 64
     then (upstream_allocate ⟨32, 64, 256, 2⟩ ⟨false, false, 1, 16⟩
         (fun _ _ => none) 64 32 0).2.1 =
         [ceil_allocation_size ⟨false, false, 1, 16⟩ 64] ∨
       (upstream_allocate ⟨32, 64, 256, 2⟩ ⟨false, false, 1, 16⟩
         (fun _ _ => none) 64 32 0).2.1 = []
     else ∃ k, (upstream_allocate ⟨32, 64, 256, 2⟩ ⟨false, false, 1, 16⟩
         (fun _ _ => none) 64 32 0).2.1 =
         ((step_seq ⟨32, 64, 256, 2⟩
           (get_next_block_size ⟨32, 64, 256, 2⟩ 0)).take k).map
           (ceil_allocation_size ⟨false, false, 1, 16⟩)) ∧
    ((upstream_allocate ⟨32, 64, 256, 2⟩ ⟨false, false, 1, 16⟩
        (fun _ _ => none) 64 32 0).1 = none →
      ((32 : Nat) < 32 →
        (upstream_allocate ⟨32, 64, 256, 2⟩ ⟨false, false, 1, 16⟩
          (fun _ _ => none) 64 32 0).2.2 = 0) ∧
      (ceil_allocation_size ⟨false, false, 1, 16⟩
          (get_next_block_size ⟨32, 64, 256, 2⟩ 0) < 64 →
        (upstream_allocate ⟨32, 64, 256, 2⟩ ⟨false, false, 1, 16⟩
          (fun _ _ => none) 64 32 0).2.2 = 0) ∧
      ((32 : Nat) ≤ 32 →
        ¬ ceil_allocation_size ⟨false, false, 1, 16⟩
            (get_next_block_size ⟨32, 64, 256, 2⟩ 0) < 64 →
        (upstream_allocate ⟨32, 64, 256, 2⟩ ⟨false, false, 1, 16⟩
          (fun _ _ => none) 64 32 0).2.2 = 0 ∨
        ((upstream_allocate ⟨32, 64, 256, 2⟩ ⟨false, false, 1, 16⟩
            (fun _ _ => none) 64 32 0).2.2 ∈
            step_seq ⟨32, 64, 256, 2⟩ (get_next_block_size ⟨32, 64, 256, 2⟩
              0) ∧
          ceil_allocation_size ⟨false, false, 1, 16⟩
            ((upstream_allocate ⟨32, 64, 256, 2⟩ ⟨false, false, 1, 16⟩
              (fun _ _ => none) 64 32 0).2.2) < 64)))) :=
  ⟨⟨by decide, by decide, Or.inl rfl⟩,
    claim_cache_stepdown_policy ⟨32, 64, 256, 2⟩ ⟨false, false, 1, 16⟩
      (fun _ _ => none) 64 32 0 (by decide) (by decide) (Or.inl rfl)⟩

/-- Counterexample to C3 as stated.  Configuration: granularity 32,
`min_block_size` 64, `max_block_size` 256, multiplier 2; the recorded
hint is 64, the request is `allocate(64, alignment 64)` and the
upstream always fails.  The policy attempts 128 and then the exact
requested size 64 and fails, so the claim requires the hint to be
recorded as "start over" (so that the next attempt begins from
`min_block_size`); but because the alignment 64 exceeds the
granularity 32, the code leaves the hint at 64, and the next attempt
would begin from `get_next_block_size = 128 ≠ min_block_size`. -/
theorem claim_cache_stepdown_policy_counterexample :
    (cache_allocate ⟨32, 64, 256, 2⟩ ⟨false, false, 1, 16⟩ (fun _ _ => none)
      ⟨0, 0, [], 64⟩ 64 64).1 = none ∧
    (cache_allocate ⟨32, 64, 256, 2⟩ ⟨false, false, 1, 16⟩ (fun _ _ => none)
      ⟨0, 0, [], 64⟩ 64 64).2.1 = [128, 64] ∧
    (cache_allocate ⟨32, 64, 256, 2⟩ ⟨false, false, 1, 16⟩ (fun _ _ => none)
      ⟨0, 0, [], 64⟩ 64 64).2.2.lastBlockSize = 64 ∧
    get_next_block_size ⟨32, 64, 256, 2⟩ 64 = 128 := by
  decide

/-- Claim C2, amended to the code's behavior: the fast path serves
from the bump region only when the loaded head pointer is already
aligned.  If the size is a multiple of the granularity, the head
pointer is divisible by the requested alignment and the head's
remaining size is at least the requested size, then `allocate` returns
the head pointer, installs the head advanced by exactly `size` bytes
via the compare-and-swap, performs no upstream call, and pushes
nothing onto the free stack (no padding exists, since the pointer was
already aligned). -/
theorem claim_cache_fast_path (c : CacheConfig) (u : UpstreamSpec)
    (oracle : Oracle) (st : CacheState) (size alignment : Nat)
    (hgran : size % c.granularity = 0)
    (hfit : size ≤ st.headSize)
    (halign : st.headPtr % alignment = 0) :
    cache_allocate c u oracle st size alignment =
      (some st.headPtr, [],
       { st with headPtr := st.headPtr + size,
                 headSize := st.headSize - size }) := by
  unfold cache_allocate
  rw [if_neg (by omega), if_pos ⟨hfit, halign⟩]

/-- Witness for the amended C2: a fast-path hit at head pointer 64
with 128 bytes remaining. -/
theorem claim_cache_fast_path_witness :
    cache_allocate ⟨32, 64, 64, 2⟩ ⟨false, false, 1, 16⟩ (fun _ _ => none)
      ⟨64, 128, [], 0⟩ 64 64 = (some 64, [], ⟨128, 64, [], 0⟩) :=
  claim_cache_fast_path ⟨32, 64, 64, 2⟩ ⟨false, false, 1, 16⟩ (fun _ _ => none)
    ⟨64, 128, [], 0⟩ 64 64 (by decide) (by decide) (by decide)

/-- Counterexample to C2 as stated.  Granularity 32, head block
`{ptr := 32, size := 128}`, request `allocate(64, alignment 64)`: the
claim's condition holds — aligning the base pointer 32 up to 64 gives
pointer 64 with 32 bytes of padding and leaves 128 − 32 = 96 ≥ 64
bytes — so the claim requires the call to be served from the bump
region with the aligned pointer 64 returned, the padding pushed onto
the free stack and no upstream allocation.  Instead the code requires
the head pointer to be aligned already: it issues an upstream request
(of size 64) and, with a failing upstream, returns null with an empty
free stack. -/
theorem claim_cache_fast_path_counterexample :
    (align_pointer 32 64 = (64, 32) ∧ 32 + 64 ≤ 128) ∧
    cache_allocate ⟨32, 64, 64, 2⟩ ⟨false, false, 1, 16⟩ (fun _ _ => none)
      ⟨32, 128, [], 0⟩ 64 64 = (none, [64], ⟨32, 128, [], 0⟩) := by
  decide

/-- Claim C6: for both allocators, every `allocate` call that returns
null leaves the allocator's observable state (bump head, free-chunk
stack, per-class stacks) exactly as it was before the call — in the
cache, only the advisory `last_block_size_` hint may have changed; the
pool has no hint and its state is bit-identical.  In particular, a
request whose size is not a multiple of the cache's granularity
(respectively the pool's `min_chunk_size`) returns null immediately,
with no side effect at all and no upstream call. -/
theorem claim_allocate_null_no_side_effects :
    (∀ (c : CacheConfig) (u : UpstreamSpec) (oracle : Oracle) (st : CacheState)
      (size alignment : Nat),
      ((cache_allocate c u oracle st size alignment).1 = none →
        (cache_allocate c u oracle st size alignment).2.2.headPtr = st.headPtr ∧
        (cache_allocate c u oracle st size alignment).2.2.headSize = st.headSize ∧
        (cache_allocate c u oracle st size alignment).2.2.freeChunks =
          st.freeChunks) ∧
      (size % c.granularity ≠ 0 →
        cache_allocate c u oracle st size alignment = (none, [], st))) ∧
    (∀ (c : PoolConfig) (u : UpstreamSpec) (oracle : Oracle) (st : PoolState)
      (size alignment : Nat),
      ((pool_allocate c u oracle st size alignment).1 = none →
        (pool_allocate c u oracle st size alignment).2.2 = st) ∧
      (size % c.min_chunk_size ≠ 0 →
        pool_allocate c u oracle st size alignment = (none, [], st))) := by
  constructor
  · intro c u oracle st size alignment
    unfold cache_allocate
    by_cases hg : size % c.granularity ≠ 0
    · rw [if_pos hg]
      exact ⟨fun _ => ⟨rfl, rfl, rfl⟩, fun _ => rfl⟩
    · rw [if_neg hg]
      refine ⟨?_, fun hcon => absurd hcon hg⟩
      by_cases hf : size ≤ st.headSize ∧ st.headPtr % alignment = 0
      · rw [if_pos hf]
        intro h
        simp at h
      · rw [if_neg hf]
        cases hup : (upstream_allocate c u oracle size alignment st.lastBlockSize).1 with
        | none => exact fun _ => ⟨rfl, rfl, rfl⟩
        | some pa =>
          intro h
          exfalso
          dsimp only at h
          revert h
          split <;> simp
  · intro c u oracle st size alignment
    unfold pool_allocate
    by_cases hg : size % c.min_chunk_size ≠ 0
    · rw [if_pos hg]
      exact ⟨fun _ => rfl, fun _ => rfl⟩
    · rw [if_neg hg]
      refine ⟨?_, fun hcon => absurd hcon hg⟩
      cases hfind : pool_find_chunk c u st size alignment with
      | some ia =>
        intro h
        simp at h
      | none =>
        cases horacle : oracle (pool_upstream_size c u size alignment)
            c.min_chunk_size with
        | none => exact fun _ => rfl
        | some b =>
          intro h
          simp at h

/-- Witness for C6: the implications discharged at a concrete failing
call of each allocator (sizes not multiples of the configured unit). -/
theorem claim_allocate_null_no_side_effects_witness :
    cache_allocate ⟨32, 64, 64, 2⟩ ⟨false, false, 1, 16⟩ (fun _ _ => none)
      ⟨0, 0, [], 0⟩ 17 8 = (none, [], ⟨0, 0, [], 0⟩) ∧
    pool_allocate ⟨1024, 4096, 2⟩ ⟨false, false, 1, 16⟩ (fun _ _ => none)
      [[], [], []] 100 8 = (none, [], [[], [], []]) :=
  ⟨(claim_allocate_null_no_side_effects.1 ⟨32, 64, 64, 2⟩ ⟨false, false, 1, 16⟩
      (fun _ _ => none) ⟨0, 0, [], 0⟩ 17 8).2 (by decide),
   (claim_allocate_null_no_side_effects.2 ⟨1024, 4096, 2⟩ ⟨false, false, 1, 16⟩
      (fun _ _ => none) [[], [], []] 100 8).2 (by decide)⟩

/-- Claim C9: calling the cache's `deallocate` with a null pointer or
a zero size, and the pool's `deallocate` with a null pointer or a size
smaller than `min_chunk_size`, is a complete no-op: the state is
returned unchanged, with no free-stack push and no node
construction. -/
theorem claim_deallocate_bad_params_noop :
    (∀ (st : CacheState) (ptr size alignment : Nat),
      ptr = 0 ∨ size = 0 → cache_deallocate st ptr size alignment = st) ∧
    (∀ (c : PoolConfig) (u : UpstreamSpec) (st : PoolState) (ptr size : Nat),
      ptr = 0 ∨ size < c.min_chunk_size → pool_deallocate c u st ptr size = st) := by
  constructor
  · intro st ptr size alignment h
    unfold cache_deallocate
    rw [if_pos h]
  · intro c u st ptr size h
    unfold pool_deallocate
    rw [if_pos h]

/-- Witness for C9: a null-pointer cache deallocation and an
undersized pool deallocation, both no-ops. -/
theorem claim_deallocate_bad_params_noop_witness :
    cache_deallocate ⟨7, 7, [], 7⟩ 0 64 16 = ⟨7, 7, [], 7⟩ ∧
    pool_deallocate ⟨1024, 4096, 2⟩ ⟨false, false, 1, 16⟩ [[], [], []] 2048 100 =
      [[], [], []] :=
  ⟨claim_deallocate_bad_params_noop.1 ⟨7, 7, [], 7⟩ 0 64 16 (Or.inl rfl),
   claim_deallocate_bad_params_noop.2 ⟨1024, 4096, 2⟩ ⟨false, false, 1, 16⟩
     [[], [], []] 2048 100 (Or.inr (by decide))⟩

/-- Claim C10: the public `pool_resource::deallocate` ignores its
alignment parameter entirely — for any two alignment values the
resulting pool state is identical, because only the pointer and size
are forwarded to the implementation. -/
theorem claim_pool_deallocate_ignores_alignment (c : PoolConfig)
    (u : UpstreamSpec) (st : PoolState) (ptr size a1 a2 : Nat) :
    pool_resource_deallocate c u st ptr size a1 =
      pool_resource_deallocate c u st ptr size a2 := rfl

/-! Tiling lemmas for the pool's carve loops. -/

theorem tile_succ (W cs q : Nat) :
    tile W cs (q + 1) = ⟨W, cs⟩ :: tile (W + cs) cs q := by
  unfold tile
  rw [List.range_succ_eq_map]
  simp only [List.map_cons, List.map_map]
  congr 1
  · simp
  · apply List.map_congr_left
    intro k _
    simp only [Function.comp]
    congr 1
    have h := Nat.succ_mul k cs
    omega

theorem tile_covers (cs : Nat) :
    ∀ (q W b : Nat), covers (tile W cs q) b ↔ (W ≤ b ∧ b < W + q * cs) := by
  intro q
  induction q with
  | zero =>
    intro W b
    constructor
    · intro h
      exact absurd h covers_nil
    · intro h
      omega
  | succ q ih =>
    intro W b
    rw [tile_succ, covers_cons, ih (W + cs) b]
    unfold Region.holds Region.stop
    simp only
    have h : (q + 1) * cs = q * cs + cs := by ring
    constructor
    · intro hh
      rcases hh with hh | hh <;> omega
    · intro hh
      by_cases hb : b < W + cs
      · left
        omega
      · right
        omega

theorem tile_chain (cs : Nat) :
    ∀ (q W : Nat), List.Chain' RTouch (tile W cs q) := by
  intro q
  induction q with
  | zero =>
    intro W
    simp [tile]
  | succ q ih =>
    intro W
    rw [tile_succ, List.chain'_cons']
    refine ⟨?_, ih (W + cs)⟩
    intro y hy
    cases q with
    | zero =>
      simp [tile] at hy
    | succ q' =>
      rw [tile_succ] at hy
      simp only [List.head?_cons, Option.mem_def, Option.some.injEq] at hy
      rw [← hy]
      unfold RTouch Region.stop
      simp only
      omega

theorem tile_pairwise (cs q W : Nat) : List.Pairwise Sep (tile W cs q) :=
  (List.chain'_iff_pairwise.mp (tile_chain cs q W)).imp (fun h => Or.inl h)

theorem tile_mem {W cs q : Nat} {r : Region} (h : r ∈ tile W cs q) :
    ∃ k, k < q ∧ r = ⟨W + k * cs, cs⟩ := by
  unfold tile at h
  obtain ⟨k, hk, hr⟩ := List.mem_map.mp h
  exact ⟨k, List.mem_range.mp hk, hr.symm⟩

theorem covers_reverse {l : List Region} {b : Nat} :
    covers l.reverse b ↔ covers l b := by
  unfold covers
  simp [List.mem_reverse]

theorem pairwise_sep_reverse {l : List Region} (h : List.Pairwise Sep l) :
    List.Pairwise Sep l.reverse := by
  rw [List.pairwise_reverse]
  exact h.imp Sep.symm

/-- The descending-index map over a range is the reverse of the
ascending one. -/
theorem map_range_rev {α : Type} (g : Nat → α) :
    ∀ q, (List.range q).map (fun k => g (q - 1 - k)) =
      ((List.range q).map g).reverse := by
  intro q
  induction q with
  | zero => rfl
  | succ q ih =>
    have hlhs : (List.range (q + 1)).map (fun k => g (q + 1 - 1 - k)) =
        g q :: (List.range q).map (fun k => g (q - 1 - k)) := by
      rw [List.range_succ_eq_map]
      simp only [List.map_cons, List.map_map]
      congr 1
      apply List.map_congr_left
      intro k _
      simp only [Function.comp]
      congr 1
      omega
    rw [hlhs, ih, List.range_succ, List.map_append, List.map_singleton,
      List.reverse_append, List.reverse_singleton, List.singleton_append]

/-! Closed forms of the two carve loops of
`pool_resource_impl::deallocate`. -/

theorem carve_upper_eq (base cs : Nat) (hcs : 0 < cs) :
    ∀ (fuel us : Nat), us ≤ fuel →
    carve_upper base cs fuel us =
      ((List.range (us / cs)).map (fun k => base + (us - (k + 1) * cs)),
       us % cs) := by
  intro fuel
  induction fuel with
  | zero =>
    intro us h
    have h0 : us = 0 := by omega
    subst h0
    rw [Nat.zero_div, Nat.zero_mod]
    rfl
  | succ fuel ih =>
    intro us h
    by_cases hle : cs ≤ us
    · have hrec := ih (us - cs) (by omega)
      simp only [carve_upper]
      rw [if_pos hle, hrec]
      have hdiv : us / cs = (us - cs) / cs + 1 := by
        rw [Nat.div_eq_sub_div hcs hle]
      have hmod : us % cs = (us - cs) % cs := by
        conv_lhs => rw [show us = cs + (us - cs) by omega]
        rw [Nat.add_mod_left]
      rw [hdiv, hmod]
      simp only [Prod.mk.injEq]
      refine ⟨?_, trivial⟩
      rw [List.range_succ_eq_map]
      simp only [List.map_cons, List.map_map]
      congr 1
      · congr 1
        omega
      · apply List.map_congr_left
        intro k _
        simp only [Function.comp, Nat.succ_eq_add_one]
        congr 1
        have h1 : (k + 1 + 1) * cs = (k + 1) * cs + cs := by ring
        omega
    · simp only [carve_upper]
      rw [if_neg hle]
      have h1 : us / cs = 0 := Nat.div_eq_of_lt (by omega)
      have h2 : us % cs = us := Nat.mod_eq_of_lt (by omega)
      rw [h1, h2]
      rfl

theorem carve_lower_eq (cs : Nat) (hcs : 0 < cs) :
    ∀ (fuel lp ls : Nat), ls ≤ fuel →
    carve_lower cs fuel lp ls =
      ((List.range (ls / cs)).map (fun k => lp + k * cs),
       lp + (ls / cs) * cs, ls % cs) := by
  intro fuel
  induction fuel with
  | zero =>
    intro lp ls h
    have h0 : ls = 0 := by omega
    subst h0
    rw [Nat.zero_div, Nat.zero_mod]
    simp [carve_lower]
  | succ fuel ih =>
    intro lp ls h
    by_cases hle : cs ≤ ls
    · have hrec := ih (lp + cs) (ls - cs) (by omega)
      simp only [carve_lower]
      rw [if_pos hle, hrec]
      have hdiv : ls / cs = (ls - cs) / cs + 1 := by
        rw [Nat.div_eq_sub_div hcs hle]
      have hmod : ls % cs = (ls - cs) % cs := by
        conv_lhs => rw [show ls = cs + (ls - cs) by omega]
        rw [Nat.add_mod_left]
      rw [hdiv, hmod]
      simp only [Prod.mk.injEq]
      refine ⟨?_, ?_, trivial⟩
      · rw [List.range_succ_eq_map]
        simp only [List.map_cons, List.map_map]
        congr 1
        · simp
        · apply List.map_congr_left
          intro k _
          simp only [Function.comp]
          have h1 := Nat.succ_mul k cs
          omega
      · have h1 : ((ls - cs) / cs + 1) * cs = (ls - cs) / cs * cs + cs := by
          ring
        omega
    · simp only [carve_lower]
      rw [if_neg hle]
      have h1 : ls / cs = 0 := Nat.div_eq_of_lt (by omega)
      have h2 : ls % cs = ls := Nat.mod_eq_of_lt (by omega)
      rw [h1, h2]
      simp

/-- The address list descending from the top of `[base, base + us)` in
steps of `cs` is the reversed tiling of its top `us - us % cs` bytes. -/
theorem map_range_desc_eq_tile (base cs us : Nat) :
    ((List.range (us / cs)).map (fun k => base + (us - (k + 1) * cs))).map
        (fun a => Region.mk a cs) =
      (tile (base + us % cs) cs (us / cs)).reverse := by
  simp only [List.map_map]
  unfold tile
  rw [← map_range_rev]
  apply List.map_congr_left
  intro k hk
  simp only [Function.comp]
  congr 1
  have hk' : k < us / cs := List.mem_range.mp hk
  have hdm := Nat.div_add_mod us cs
  have hsum : (k + 1) + (us / cs - 1 - k) = us / cs := by omega
  have hmul : ((k + 1) + (us / cs - 1 - k)) * cs = (us / cs) * cs := by
    rw [hsum]
  rw [Nat.add_mul] at hmul
  have hcm : cs * (us / cs) = (us / cs) * cs := Nat.mul_comm _ _
  omega

/-- The upper carve produces exactly the reversed tiling of the top
`us - us % cs` bytes of the upper range. -/
theorem carve_upper_regions (base cs us : Nat) (hcs : 0 < cs) :
    ((carve_upper base cs us us).1).map (fun a => Region.mk a cs) =
      (tile (base + us % cs) cs (us / cs)).reverse := by
  rw [carve_upper_eq base cs hcs us us (Nat.le_refl us)]
  exact map_range_desc_eq_tile base cs us

/-- The address list ascending from `lp` in steps of `cs` is the
tiling of `[lp, lp + q * cs)`. -/
theorem map_range_asc_eq_tile (lp cs q : Nat) :
    ((List.range q).map (fun k => lp + k * cs)).map (fun a => Region.mk a cs) =
      tile lp cs q := by
  simp only [List.map_map]
  rfl

/-- The lower carve produces exactly the ascending tiling of the
bottom `ls - ls % cs` bytes of the lower range. -/
theorem carve_lower_regions (cs lp ls : Nat) (hcs : 0 < cs) :
    ((carve_lower cs ls lp ls).1).map (fun a => Region.mk a cs) =
      tile lp cs (ls / cs) := by
  rw [carve_lower_eq cs hcs ls lp ls (Nat.le_refl ls)]
  simp only [List.map_map]
  rfl

/-- Every region of a tiling sits inside the tiled range and has the
tile size. -/
theorem tile_residence {W cs q : Nat} {r : Region} (h : r ∈ tile W cs q) :
    W ≤ r.addr ∧ r.stop ≤ W + q * cs ∧ r.size = cs := by
  obtain ⟨k, hk, hr⟩ := tile_mem h
  subst hr
  unfold Region.stop
  simp only
  refine ⟨by omega, ?_, trivial⟩
  have h1 : (k + 1) * cs ≤ q * cs := Nat.mul_le_mul_right _ (by omega)
  have h2 : (k + 1) * cs = k * cs + cs := by ring
  omega

/-! Chunk-size and chunk-alignment facts. -/

theorem chunk_sizes_length_pos (c : PoolConfig) : 0 < (chunk_sizes c).length := by
  unfold chunk_sizes
  simp

theorem chunk_sizes_getD (c : PoolConfig) {i : Nat}
    (hi : i < (chunk_sizes c).length) :
    (chunk_sizes c).getD i 0 =
      c.min_chunk_size * c.chunk_size_multiplier ^ i := by
  unfold chunk_sizes at *
  simp only [List.length_map, List.length_range] at hi
  rw [List.getD_eq_getElem _ _ (by simpa using hi)]
  simp

theorem min_dvd_chunk_size (c : PoolConfig) {i : Nat}
    (hi : i < (chunk_sizes c).length) :
    c.min_chunk_size ∣ (chunk_sizes c).getD i 0 := by
  rw [chunk_sizes_getD c hi]
  exact Dvd.intro _ rfl

theorem chunk_size_pos (c : PoolConfig) (hc : c.Valid) {i : Nat}
    (hi : i < (chunk_sizes c).length) : 0 < (chunk_sizes c).getD i 0 := by
  rw [chunk_sizes_getD c hi]
  have h1 : 0 < c.min_chunk_size := hc.1.pos
  have h2 : 0 < c.chunk_size_multiplier := hc.2.2.2.2.1
  positivity

theorem chunk_size_dvd (c : PoolConfig) {i j : Nat} (hij : i ≤ j)
    (hj : j < (chunk_sizes c).length) :
    (chunk_sizes c).getD i 0 ∣ (chunk_sizes c).getD j 0 := by
  rw [chunk_sizes_getD c (by omega), chunk_sizes_getD c hj]
  exact Nat.mul_dvd_mul_left _ (pow_dvd_pow _ hij)

theorem upstream_alignment_pow2 (c : PoolConfig) (u : UpstreamSpec)
    (hc : c.Valid) (hu : IsPow2 u.guaranteed_alignment) :
    IsPow2 (get_upstream_alignment c u) :=
  hc.1.max hu

theorem chunk_alignment_pow2 (c : PoolConfig) (u : UpstreamSpec)
    (hc : c.Valid) (hu : IsPow2 u.guaranteed_alignment) (i : Nat) :
    IsPow2 (get_chunk_alignment c u i) :=
  (isPow2_two_pow _).min (upstream_alignment_pow2 c u hc hu)

theorem chunk_alignment_pos (c : PoolConfig) (u : UpstreamSpec)
    (hc : c.Valid) (hu : IsPow2 u.guaranteed_alignment) (i : Nat) :
    0 < get_chunk_alignment c u i :=
  (chunk_alignment_pow2 c u hc hu i).pos

/-- The natural alignment of a class divides its chunk size. -/
theorem chunk_alignment_dvd_size (c : PoolConfig) (u : UpstreamSpec)
    (hc : c.Valid) (hu : IsPow2 u.guaranteed_alignment) {i : Nat}
    (hi : i < (chunk_sizes c).length) :
    get_chunk_alignment c u i ∣ (chunk_sizes c).getD i 0 := by
  have hpos := chunk_size_pos c hc hi
  have h1 : 2 ^ countr_zero ((chunk_sizes c).getD i 0) ∣ (chunk_sizes c).getD i 0 :=
    countr_zero_dvd (by omega)
  refine dvd_trans ?_ h1
  exact ((chunk_alignment_pow2 c u hc hu i).dvd_of_le (isPow2_two_pow _)
    (Nat.min_le_left _ _))

/-- `min_chunk_size` divides every class's natural alignment. -/
theorem min_dvd_chunk_alignment (c : PoolConfig) (u : UpstreamSpec)
    (hc : c.Valid) (hu : IsPow2 u.guaranteed_alignment) {i : Nat}
    (hi : i < (chunk_sizes c).length) :
    c.min_chunk_size ∣ get_chunk_alignment c u i := by
  have hmin := hc.1
  have hdvd := min_dvd_chunk_size c hi
  have hpos := chunk_size_pos c hc hi
  have h1 : c.min_chunk_size ≤ 2 ^ countr_zero ((chunk_sizes c).getD i 0) := by
    have hle := le_countr_zero (by omega) (hmin ▸ hdvd)
    calc c.min_chunk_size = 2 ^ countr_zero c.min_chunk_size := hmin.symm
      _ ≤ 2 ^ countr_zero ((chunk_sizes c).getD i 0) :=
        Nat.pow_le_pow_right (by omega) hle
  have h2 : c.min_chunk_size ≤ get_upstream_alignment c u := by
    unfold get_upstream_alignment
    exact le_max_left _ _
  apply hmin.dvd_of_le (chunk_alignment_pow2 c u hc hu i)
  unfold get_chunk_alignment
  exact le_min h1 h2

/-- Chunk alignments are monotone in the class index (as powers of two
they then divide each other). -/
theorem chunk_alignment_dvd_of_le (c : PoolConfig) (u : UpstreamSpec)
    (hc : c.Valid) (hu : IsPow2 u.guaranteed_alignment) {i j : Nat}
    (hij : i ≤ j) (hj : j < (chunk_sizes c).length) :
    get_chunk_alignment c u i ∣ get_chunk_alignment c u j := by
  have hposj := chunk_size_pos c hc hj
  have hposi := @chunk_size_pos c hc i (by omega)
  have hctz : countr_zero ((chunk_sizes c).getD i 0) ≤
      countr_zero ((chunk_sizes c).getD j 0) := by
    apply le_countr_zero (by omega)
    exact dvd_trans (countr_zero_dvd (by omega)) (chunk_size_dvd c hij hj)
  apply (chunk_alignment_pow2 c u hc hu i).dvd_of_le
    (chunk_alignment_pow2 c u hc hu j)
  unfold get_chunk_alignment
  apply le_min
  · exact le_trans (Nat.min_le_left _ _)
      (Nat.pow_le_pow_right (by omega) hctz)
  · exact Nat.min_le_right _ _

theorem chunk_sizes_zero (c : PoolConfig) :
    (chunk_sizes c).getD 0 0 = c.min_chunk_size := by
  rw [chunk_sizes_getD c (chunk_sizes_length_pos c)]
  simp

/-- The smallest class's natural alignment is exactly
`min_chunk_size`. -/
theorem chunk_alignment_zero (c : PoolConfig) (u : UpstreamSpec)
    (hc : c.Valid) : get_chunk_alignment c u 0 = c.min_chunk_size := by
  unfold get_chunk_alignment
  rw [chunk_sizes_zero]
  have h := hc.1
  unfold IsPow2 at h
  rw [h]
  unfold get_upstream_alignment
  exact Nat.min_eq_left (le_max_left _ _)

/-- One unfolding of the greedy fill loop. -/
theorem fill_chunks_succ (c : PoolConfig) (i up us lp ls : Nat) :
    fill_chunks c (i + 1) up us lp ls =
      ((carve_upper up ((chunk_sizes c).getD i 0) us us).1.map
        (fun a => (i, a))) ++
      ((carve_lower ((chunk_sizes c).getD i 0) ls lp ls).1.map
        (fun a => (i, a))) ++
      fill_chunks c i up (carve_upper up ((chunk_sizes c).getD i 0) us us).2
        (carve_lower ((chunk_sizes c).getD i 0) ls lp ls).2.1
        (carve_lower ((chunk_sizes c).getD i 0) ls lp ls).2.2 := rfl

/-- What a successful split search certifies: the found class is a
real non-zero class, the padding is the alignment padding of `ptr` at
that class's natural alignment, and a class-sized chunk plus the
padding fits in the range. -/
theorem find_split_spec (c : PoolConfig) (u : UpstreamSpec)
    (ptr size : Nat) :
    ∀ n f pad, find_split c u ptr size n = some (f, pad) →
      1 ≤ f ∧ f < n ∧
      pad = (align_pointer ptr (get_chunk_alignment c u f)).2 ∧
      (chunk_sizes c).getD f 0 + pad ≤ size := by
  intro n
  induction n with
  | zero =>
    intro f pad h
    simp [find_split] at h
  | succ n ih =>
    intro f pad h
    match n, ih, h with
    | 0, _, h => simp [find_split] at h
    | m + 1, ih, h =>
      rw [show m + 1 + 1 = (m + 1) + 1 from rfl] at h
      simp only [find_split] at h
      by_cases hsz : size < (chunk_sizes c).getD (m + 1) 0
      · rw [if_pos hsz] at h
        have := ih f pad h
        exact ⟨this.1, by omega, this.2.2.1, this.2.2.2⟩
      · rw [if_neg hsz] at h
        by_cases hfit : (chunk_sizes c).getD (m + 1) 0 +
            (align_pointer ptr (get_chunk_alignment c u (m + 1))).2 ≤ size
        · rw [if_pos hfit] at h
          injection h with h
          injection h with h1 h2
          subst h1
          subst h2
          exact ⟨by omega, by omega, rfl, hfit⟩
        · rw [if_neg hfit] at h
          have := ih f pad h
          exact ⟨this.1, by omega, this.2.2.1, this.2.2.2⟩

/-- Tagging a list of addresses with a class index and taking the
chunk regions is the same as pairing each address with that class's
chunk size. -/
theorem comp_chunk_region (c : PoolConfig) (i : Nat) (X : List Nat) :
    (X.map (fun a => (i, a))).map (chunk_region c) =
      X.map (fun a => Region.mk a ((chunk_sizes c).getD i 0)) := by
  rw [List.map_map]
  rfl

set_option maxHeartbeats 1600000 in
/-- Full specification of the two-sided greedy fill loop of
`pool_resource_impl::deallocate`: under the loop invariants (sizes are
multiples of `min_chunk_size`, the upper range ends at or before the
lower range starts, and both the upper range's end and the lower
range's start are aligned to the natural alignment of the next class
to process), every pushed chunk belongs to a processed class and is
aligned to its class's natural alignment, the chunk regions exactly
cover the upper and lower ranges, and they are pairwise disjoint. -/
theorem fill_chunks_spec (c : PoolConfig) (u : UpstreamSpec)
    (hc : c.Valid) (hu : IsPow2 u.guaranteed_alignment) :
    ∀ (i up us lp ls : Nat),
    i ≤ (chunk_sizes c).length →
    us % c.min_chunk_size = 0 →
    ls % c.min_chunk_size = 0 →
    up + us ≤ lp →
    (i = 0 → us = 0 ∧ ls = 0) →
    (∀ j, j + 1 = i → (up + us) % get_chunk_alignment c u j = 0 ∧
        lp % get_chunk_alignment c u j = 0) →
    (∀ ch ∈ fill_chunks c i up us lp ls,
        ch.1 < i ∧ ch.2 % get_chunk_alignment c u ch.1 = 0) ∧
    (∀ b, covers ((fill_chunks c i up us lp ls).map (chunk_region c)) b ↔
        ((up ≤ b ∧ b < up + us) ∨ (lp ≤ b ∧ b < lp + ls))) ∧
    List.Pairwise Sep ((fill_chunks c i up us lp ls).map (chunk_region c)) ∧
    (∀ r ∈ (fill_chunks c i up us lp ls).map (chunk_region c),
        (up ≤ r.addr ∧ r.stop ≤ up + us) ∨
        (lp ≤ r.addr ∧ r.stop ≤ lp + ls)) := by
  intro i
  induction i with
  | zero =>
    intro up us lp ls _ _ _ _ hz _
    obtain ⟨h1, h2⟩ := hz rfl
    subst h1
    subst h2
    have he : fill_chunks c 0 up 0 lp 0 = [] := rfl
    rw [he]
    refine ⟨?_, ?_, List.Pairwise.nil, ?_⟩
    · intro ch hch
      exact absurd hch (List.not_mem_nil ch)
    · intro b
      constructor
      · intro h
        exact absurd h covers_nil
      · intro h
        exact absurd h (by omega)
    · intro r hr
      exact absurd hr (List.not_mem_nil r)
  | succ i ih =>
    intro up us lp ls hlen hmu hml hule hz halign
    obtain ⟨hA, hL⟩ := halign i rfl
    have hilen : i < (chunk_sizes c).length := by omega
    have hcs_pos : 0 < (chunk_sizes c).getD i 0 := chunk_size_pos c hc hilen
    have hmin_pos : 0 < c.min_chunk_size := hc.1.pos
    have hmindvd : c.min_chunk_size ∣ (chunk_sizes c).getD i 0 :=
      min_dvd_chunk_size c hilen
    have hAdvd : get_chunk_alignment c u i ∣ (chunk_sizes c).getD i 0 :=
      chunk_alignment_dvd_size c u hc hu hilen
    have hApos : 0 < get_chunk_alignment c u i :=
      chunk_alignment_pos c u hc hu i
    have hdmu := Nat.div_add_mod us ((chunk_sizes c).getD i 0)
    have hdml := Nat.div_add_mod ls ((chunk_sizes c).getD i 0)
    have hcmu : (chunk_sizes c).getD i 0 * (us / (chunk_sizes c).getD i 0) =
        us / (chunk_sizes c).getD i 0 * (chunk_sizes c).getD i 0 :=
      Nat.mul_comm _ _
    have hcml : (chunk_sizes c).getD i 0 * (ls / (chunk_sizes c).getD i 0) =
        ls / (chunk_sizes c).getD i 0 * (chunk_sizes c).getD i 0 :=
      Nat.mul_comm _ _
    obtain ⟨IH1, IH2, IH3, IH4⟩ :=
      ih up (us % (chunk_sizes c).getD i 0)
        (lp + ls / (chunk_sizes c).getD i 0 * (chunk_sizes c).getD i 0)
        (ls % (chunk_sizes c).getD i 0)
        (by omega)
        (by rw [Nat.mod_mod_of_dvd us hmindvd]; exact hmu)
        (by rw [Nat.mod_mod_of_dvd ls hmindvd]; exact hml)
        (by omega)
        (by
          intro hi0
          subst hi0
          rw [chunk_sizes_zero]
          exact ⟨hmu, hml⟩)
        (by
          intro j hj
          have hjlen : j < (chunk_sizes c).length := by omega
          have hAji : get_chunk_alignment c u j ∣ get_chunk_alignment c u i :=
            chunk_alignment_dvd_of_le c u hc hu (by omega) hilen
          have hAjcs : get_chunk_alignment c u j ∣ (chunk_sizes c).getD i 0 :=
            dvd_trans (chunk_alignment_dvd_size c u hc hu hjlen)
              (chunk_size_dvd c (by omega) hilen)
          constructor
          · have h1 : get_chunk_alignment c u j ∣ up + us :=
              dvd_trans hAji (Nat.dvd_of_mod_eq_zero hA)
            have h2 : get_chunk_alignment c u j ∣
                (chunk_sizes c).getD i 0 * (us / (chunk_sizes c).getD i 0) :=
              hAjcs.mul_right _
            have h3 : up + us % (chunk_sizes c).getD i 0 =
                (up + us) -
                  (chunk_sizes c).getD i 0 * (us / (chunk_sizes c).getD i 0) := by
              omega
            rw [h3]
            exact Nat.mod_eq_zero_of_dvd (Nat.dvd_sub' h1 h2)
          · have h1 : get_chunk_alignment c u j ∣ lp :=
              dvd_trans hAji (Nat.dvd_of_mod_eq_zero hL)
            have h2 : get_chunk_alignment c u j ∣
                ls / (chunk_sizes c).getD i 0 * (chunk_sizes c).getD i 0 :=
              hAjcs.mul_left _
            exact Nat.mod_eq_zero_of_dvd (dvd_add h1 h2))
    rw [fill_chunks_succ,
      carve_upper_eq up ((chunk_sizes c).getD i 0) hcs_pos us us
        (Nat.le_refl us),
      carve_lower_eq ((chunk_sizes c).getD i 0) hcs_pos ls lp ls
        (Nat.le_refl ls)]
    dsimp only
    rw [List.map_append, List.map_append, comp_chunk_region c i,
      comp_chunk_region c i, map_range_desc_eq_tile, map_range_asc_eq_tile]
    refine ⟨?_, ?_, ?_, ?_⟩
    · intro ch hch
      rw [List.mem_append, List.mem_append] at hch
      rcases hch with (hch | hch) | hch
      · obtain ⟨a, ha, hcha⟩ := List.mem_map.mp hch
        obtain ⟨k, hk, hak⟩ := List.mem_map.mp ha
        subst hak
        subst hcha
        have hk' : k < us / (chunk_sizes c).getD i 0 := List.mem_range.mp hk
        refine ⟨Nat.lt_succ_self i, ?_⟩
        show (up + (us - (k + 1) * (chunk_sizes c).getD i 0)) %
          get_chunk_alignment c u i = 0
        have h1 : get_chunk_alignment c u i ∣ up + us :=
          Nat.dvd_of_mod_eq_zero hA
        have h2 : get_chunk_alignment c u i ∣
            (k + 1) * (chunk_sizes c).getD i 0 := hAdvd.mul_left _
        have h3 : (k + 1) * (chunk_sizes c).getD i 0 ≤
            us / (chunk_sizes c).getD i 0 * (chunk_sizes c).getD i 0 :=
          Nat.mul_le_mul_right _ (by omega)
        have h4 : up + (us - (k + 1) * (chunk_sizes c).getD i 0) =
            (up + us) - (k + 1) * (chunk_sizes c).getD i 0 := by
          omega
        rw [h4]
        exact Nat.mod_eq_zero_of_dvd (Nat.dvd_sub' h1 h2)
      · obtain ⟨a, ha, hcha⟩ := List.mem_map.mp hch
        obtain ⟨k, hk, hak⟩ := List.mem_map.mp ha
        subst hak
        subst hcha
        refine ⟨Nat.lt_succ_self i, ?_⟩
        show (lp + k * (chunk_sizes c).getD i 0) %
          get_chunk_alignment c u i = 0
        have h1 : get_chunk_alignment c u i ∣ lp :=
          Nat.dvd_of_mod_eq_zero hL
        have h2 : get_chunk_alignment c u i ∣ k * (chunk_sizes c).getD i 0 :=
          hAdvd.mul_left _
        exact Nat.mod_eq_zero_of_dvd (dvd_add h1 h2)
      · have h := IH1 ch hch
        exact ⟨by omega, h.2⟩
    · intro b
      rw [covers_append, covers_append, covers_reverse, tile_covers,
        tile_covers, IH2]
      omega
    · rw [List.pairwise_append, List.pairwise_append]
      refine ⟨⟨pairwise_sep_reverse (tile_pairwise _ _ _),
        tile_pairwise _ _ _, ?_⟩, IH3, ?_⟩
      · intro r hr s hs
        rw [List.mem_reverse] at hr
        obtain ⟨hr1, hr2, hr3⟩ := tile_residence hr
        obtain ⟨hs1, hs2, hs3⟩ := tile_residence hs
        apply sep_of_no_common_byte (by omega) (by omega)
        intro b hb
        unfold Region.holds at hb
        unfold Region.stop at hb hr2 hs2
        omega
      · intro r hr s hs
        have hsres := IH4 s hs
        have hssize : 0 < s.size := by
          obtain ⟨ch, hch, hche⟩ := List.mem_map.mp hs
          subst hche
          have h := IH1 ch hch
          show 0 < (chunk_sizes c).getD ch.1 0
          exact chunk_size_pos c hc (by omega)
        rw [List.mem_append] at hr
        rcases hr with hr | hr
        · rw [List.mem_reverse] at hr
          obtain ⟨hr1, hr2, hr3⟩ := tile_residence hr
          apply sep_of_no_common_byte (by omega) hssize
          intro b hb
          unfold Region.holds at hb
          unfold Region.stop at hb hr2 hsres
          omega
        · obtain ⟨hr1, hr2, hr3⟩ := tile_residence hr
          apply sep_of_no_common_byte (by omega) hssize
          intro b hb
          unfold Region.holds at hb
          unfold Region.stop at hb hr2 hsres
          omega
    · intro r hr
      rw [List.mem_append, List.mem_append] at hr
      rcases hr with (hr | hr) | hr
      · rw [List.mem_reverse] at hr
        obtain ⟨hr1, hr2, hr3⟩ := tile_residence hr
        left
        unfold Region.stop at hr2 ⊢
        exact ⟨by omega, by omega⟩
      · obtain ⟨hr1, hr2, hr3⟩ := tile_residence hr
        right
        unfold Region.stop at hr2 ⊢
        exact ⟨by omega, by omega⟩
      · have h := IH4 r hr
        unfold Region.stop at h ⊢
        rcases h with h | h
        · left
          exact ⟨by omega, by omega⟩
        · right
          exact ⟨by omega, by omega⟩

set_option maxHeartbeats 1600000 in
/-- Claim C4: for every pool `deallocate(ptr, size)` with `ptr`
aligned to `min_chunk_size` (and non-null) and `size` a multiple of
`min_chunk_size`, the chunks pushed onto the per-class free stacks
form an exact partition of `[ptr, ptr + size)`: every chunk belongs to
a real size class, its region has exactly that class's chunk size, its
address is aligned to that class's natural alignment, the regions are
pairwise disjoint and cover the range exactly; when the split search
finds a class, a chunk of that largest fitting class is placed at the
aligned split point `ptr + padding`; and the deallocation is exactly
the push of these chunks. -/
theorem claim_pool_deallocate_partition (c : PoolConfig) (u : UpstreamSpec)
    (hc : c.Valid) (hu : IsPow2 u.guaranteed_alignment) (ptr size : Nat)
    (hp0 : ptr ≠ 0) (hp : ptr % c.min_chunk_size = 0)
    (hs : size % c.min_chunk_size = 0) :
    (∀ ch ∈ dealloc_chunks c u ptr size,
        ch.1 < (chunk_sizes c).length ∧
        (chunk_region c ch).size = (chunk_sizes c).getD ch.1 0 ∧
        ch.2 % get_chunk_alignment c u ch.1 = 0) ∧
    (∀ b, covers ((dealloc_chunks c u ptr size).map (chunk_region c)) b ↔
        (ptr ≤ b ∧ b < ptr + size)) ∧
    List.Pairwise Sep ((dealloc_chunks c u ptr size).map (chunk_region c)) ∧
    (∀ f pad, find_split c u ptr size (chunk_sizes c).length =
        some (f, pad) → (f, ptr + pad) ∈ dealloc_chunks c u ptr size) ∧
    (∀ st, c.min_chunk_size ≤ size →
        pool_deallocate c u st ptr size =
          (dealloc_chunks c u ptr size).foldl
            (fun s ch => pool_push s ch.1 ch.2) st) := by
  have hmin_pos : 0 < c.min_chunk_size := hc.1.pos
  have hlen1 : 0 < (chunk_sizes c).length := chunk_sizes_length_pos c
  have hfold : ∀ st, c.min_chunk_size ≤ size →
      pool_deallocate c u st ptr size =
        (dealloc_chunks c u ptr size).foldl
          (fun s ch => pool_push s ch.1 ch.2) st := by
    intro st hsize
    have hcond : ¬(ptr = 0 ∨ size < c.min_chunk_size) := by
      intro hcon
      rcases hcon with h | h
      · exact hp0 h
      · omega
    unfold pool_deallocate
    rw [if_neg hcond]
  cases hfs : find_split c u ptr size (chunk_sizes c).length with
  | none =>
    have hspec := fill_chunks_spec c u hc hu 1 ptr 0 ptr size
      hlen1 (Nat.zero_mod _) hs (by omega) (by omega)
      (by
        intro j hj
        have hj0 : j = 0 := by omega
        subst hj0
        rw [chunk_alignment_zero c u hc]
        exact ⟨by rw [Nat.add_zero]; exact hp, hp⟩)
    have hdc : dealloc_chunks c u ptr size =
        fill_chunks c 1 ptr 0 ptr size := by
      unfold dealloc_chunks
      rw [hfs]
    rw [hdc]
    obtain ⟨S1, S2, S3, _⟩ := hspec
    refine ⟨?_, ?_, S3, ?_, by rw [← hdc]; exact hfold⟩
    · intro ch hch
      have h := S1 ch hch
      exact ⟨by omega, rfl, h.2⟩
    · intro b
      rw [S2 b]
      omega
    · intro f pad hfp
      exact absurd hfp (by simp)
  | some fp =>
    obtain ⟨f, pad⟩ := fp
    obtain ⟨hf1, hflen, hpad, hfit⟩ :=
      find_split_spec c u ptr size (chunk_sizes c).length f pad hfs
    have hApos : 0 < get_chunk_alignment c u f :=
      chunk_alignment_pos c u hc hu f
    have hcsf_pos : 0 < (chunk_sizes c).getD f 0 := chunk_size_pos c hc hflen
    have hmindvd_pad : c.min_chunk_size ∣ pad := by
      rw [hpad]
      exact align_pointer_padding_dvd hApos
        (min_dvd_chunk_alignment c u hc hu hflen) (Nat.dvd_of_mod_eq_zero hp)
    have hpad_min : pad % c.min_chunk_size = 0 :=
      Nat.mod_eq_zero_of_dvd hmindvd_pad
    have hpadle : pad ≤ size := by omega
    have hls_min : (size - pad) % c.min_chunk_size = 0 :=
      Nat.mod_eq_zero_of_dvd
        (Nat.dvd_sub' (Nat.dvd_of_mod_eq_zero hs) hmindvd_pad)
    have halignf : (ptr + pad) % get_chunk_alignment c u f = 0 := by
      rw [hpad, ← align_pointer_add_padding hApos ptr]
      exact Nat.mod_eq_zero_of_dvd (align_pointer_dvd hApos ptr)
    have hspec := fill_chunks_spec c u hc hu (f + 1) ptr pad (ptr + pad)
      (size - pad) (by omega) hpad_min hls_min (by omega) (by omega)
      (by
        intro j hj
        have hjf : j = f := by omega
        subst hjf
        exact ⟨halignf, halignf⟩)
    have hdc : dealloc_chunks c u ptr size =
        fill_chunks c (f + 1) ptr pad (ptr + pad) (size - pad) := by
      unfold dealloc_chunks
      rw [hfs]
    rw [hdc]
    obtain ⟨S1, S2, S3, _⟩ := hspec
    refine ⟨?_, ?_, S3, ?_, by rw [← hdc]; exact hfold⟩
    · intro ch hch
      have h := S1 ch hch
      exact ⟨by omega, rfl, h.2⟩
    · intro b
      rw [S2 b]
      omega
    · intro f' pad' hfp
      injection hfp with hfp
      injection hfp with he1 he2
      subst he1
      subst he2
      rw [fill_chunks_succ,
        carve_lower_eq ((chunk_sizes c).getD f 0) hcsf_pos (size - pad)
          (ptr + pad) (size - pad) (Nat.le_refl _)]
      dsimp only
      apply List.mem_append_left
      apply List.mem_append_right
      apply List.mem_map.mpr
      refine ⟨ptr + pad, ?_, rfl⟩
      apply List.mem_map.mpr
      refine ⟨0, ?_, by simp⟩
      apply List.mem_range.mpr
      exact Nat.div_pos (by omega) hcsf_pos

/-- Witness for C4: the pool `min_chunk_size = 1024`,
`max_chunk_size = 4096`, `multiplier = 2` over an upstream guaranteeing
4096-byte alignment, deallocating the range `[5120, 12288)` (aligned
to and sized in multiples of 1024). -/
theorem claim_pool_deallocate_partition_witness :
    (PoolConfig.Valid ⟨1024, 4096, 2⟩ ∧ IsPow2 (4096 : Nat) ∧
      (5120 : Nat) ≠ 0 ∧ (5120 : Nat) % 1024 = 0 ∧
      (7168 : Nat) % 1024 = 0) ∧
    ((∀ ch ∈ dealloc_chunks ⟨1024, 4096, 2⟩ ⟨false, false, 1, 4096⟩ 5120 7168,
        ch.1 < (chunk_sizes ⟨1024, 4096, 2⟩).length ∧
        (chunk_region ⟨1024, 4096, 2⟩ ch).size =
          (chunk_sizes ⟨1024, 4096, 2⟩).getD ch.1 0 ∧
        ch.2 % get_chunk_alignment ⟨1024, 4096, 2⟩
          ⟨false, false, 1, 4096⟩ ch.1 = 0) ∧
    (∀ b, covers ((dealloc_chunks ⟨1024, 4096, 2⟩ ⟨false, false, 1, 4096⟩
          5120 7168).map (chunk_region ⟨1024, 4096, 2⟩)) b ↔
        (5120 ≤ b ∧ b < 5120 + 7168)) ∧
    List.Pairwise Sep ((dealloc_chunks ⟨1024, 4096, 2⟩
        ⟨false, false, 1, 4096⟩ 5120 7168).map (chunk_region ⟨1024, 4096, 2⟩)) ∧
    (∀ f pad, find_split ⟨1024, 4096, 2⟩ ⟨false, false, 1, 4096⟩ 5120 7168
        (chunk_sizes ⟨1024, 4096, 2⟩).length = some (f, pad) →
        (f, 5120 + pad) ∈ dealloc_chunks ⟨1024, 4096, 2⟩
          ⟨false, false, 1, 4096⟩ 5120 7168) ∧
    (∀ st, (1024 : Nat) ≤ 7168 →
        pool_deallocate ⟨1024, 4096, 2⟩ ⟨false, false, 1, 4096⟩ st 5120 7168 =
          (dealloc_chunks ⟨1024, 4096, 2⟩ ⟨false, false, 1, 4096⟩
            5120 7168).foldl (fun s ch => pool_push s ch.1 ch.2) st)) :=
  ⟨⟨by decide, by decide, by decide, by decide, by decide⟩,
    claim_pool_deallocate_partition ⟨1024, 4096, 2⟩ ⟨false, false, 1, 4096⟩
      (by decide) (by decide) 5120 7168 (by decide) (by decide) (by decide)⟩

/-- Claim C5: for the pool configured `min_chunk_size = 1024`,
`max_chunk_size = 4096`, `chunk_size_multiplier = 2`, the precomputed
chunk-size series is exactly `[1024, 2048, 4096]` (ending on
`max_chunk_size`, as the configuration validation demands), and
`allocate(1024, 1024)` on an empty pool issues exactly one upstream
request, of size `max_chunk_size * multiplier = 8192` (ceiled per the
upstream's rules), and returns the upstream's non-null 1024-aligned
block pointer. -/
theorem claim_pool_scenario (oracle : Oracle) (b : Nat)
    (hb : oracle 8192 1024 = some b) (hba : b % 1024 = 0) :
    chunk_sizes ⟨1024, 4096, 2⟩ = [1024, 2048, 4096] ∧
    (chunk_sizes ⟨1024, 4096, 2⟩).getLast? =
      some (PoolConfig.mk 1024 4096 2).max_chunk_size ∧
    PoolConfig.Valid ⟨1024, 4096, 2⟩ ∧
    pool_upstream_size ⟨1024, 4096, 2⟩ ⟨false, false, 1, 16⟩ 1024 1024 =
      8192 ∧
    (pool_allocate ⟨1024, 4096, 2⟩ ⟨false, false, 1, 16⟩ oracle
        (pool_empty ⟨1024, 4096, 2⟩) 1024 1024).1 = some b ∧
    (pool_allocate ⟨1024, 4096, 2⟩ ⟨false, false, 1, 16⟩ oracle
        (pool_empty ⟨1024, 4096, 2⟩) 1024 1024).2.1 = [(8192, 1024)] := by
  have hfind : pool_find_chunk ⟨1024, 4096, 2⟩ ⟨false, false, 1, 16⟩
      (pool_empty ⟨1024, 4096, 2⟩) 1024 1024 = none := by decide
  have hup : pool_upstream_size ⟨1024, 4096, 2⟩ ⟨false, false, 1, 16⟩
      1024 1024 = 8192 := by decide
  have hres : pool_allocate ⟨1024, 4096, 2⟩ ⟨false, false, 1, 16⟩ oracle
      (pool_empty ⟨1024, 4096, 2⟩) 1024 1024 =
      (some (allocate_from_block ⟨1024, 4096, 2⟩ ⟨false, false, 1, 16⟩
          (pool_empty ⟨1024, 4096, 2⟩) b 8192 1024 1024).1,
       [(8192, 1024)],
       (allocate_from_block ⟨1024, 4096, 2⟩ ⟨false, false, 1, 16⟩
          (pool_empty ⟨1024, 4096, 2⟩) b 8192 1024 1024).2) := by
    unfold pool_allocate
    rw [if_neg (by decide), hfind]
    dsimp only
    rw [hup, hb]
  have h1 : (allocate_from_block ⟨1024, 4096, 2⟩ ⟨false, false, 1, 16⟩
      (pool_empty ⟨1024, 4096, 2⟩) b 8192 1024 1024).1 =
      (align_pointer b 1024).1 := rfl
  have hap : align_pointer b 1024 = (b, 0) :=
    align_pointer_of_dvd (by decide) (Nat.dvd_of_mod_eq_zero hba)
  refine ⟨by decide, by decide, by decide, hup, ?_, ?_⟩
  · rw [hres]
    dsimp only
    rw [h1, hap]
  · rw [hres]

/-- Witness for C5: a constant upstream handing out the 1024-aligned
block 65536. -/
theorem claim_pool_scenario_witness :
    ((fun _ _ => some 65536 : Oracle) 8192 1024 = some 65536 ∧
      (65536 : Nat) % 1024 = 0) ∧
    (chunk_sizes ⟨1024, 4096, 2⟩ = [1024, 2048, 4096] ∧
    (chunk_sizes ⟨1024, 4096, 2⟩).getLast? =
      some (PoolConfig.mk 1024 4096 2).max_chunk_size ∧
    PoolConfig.Valid ⟨1024, 4096, 2⟩ ∧
    pool_upstream_size ⟨1024, 4096, 2⟩ ⟨false, false, 1, 16⟩ 1024 1024 =
      8192 ∧
    (pool_allocate ⟨1024, 4096, 2⟩ ⟨false, false, 1, 16⟩
        (fun _ _ => some 65536) (pool_empty ⟨1024, 4096, 2⟩)
        1024 1024).1 = some 65536 ∧
    (pool_allocate ⟨1024, 4096, 2⟩ ⟨false, false, 1, 16⟩
        (fun _ _ => some 65536) (pool_empty ⟨1024, 4096, 2⟩)
        1024 1024).2.1 = [(8192, 1024)]) :=
  ⟨⟨rfl, by decide⟩,
    claim_pool_scenario (fun _ _ => some 65536) 65536 rfl (by decide)⟩

/-! Support for the pool round-trip claim: every pool operation
preserves the number of class stacks, the stack lookup of `allocate`,
and the single-chunk shape of deallocating exactly one class-sized,
class-aligned chunk. -/

theorem pool_push_length (st : PoolState) (id a : Nat) :
    (pool_push st id a).length = st.length := by
  unfold pool_push
  exact List.length_set st id _

theorem foldl_push_length (l : List (Nat × Nat)) :
    ∀ st : PoolState,
    (l.foldl (fun s ch => pool_push s ch.1 ch.2) st).length = st.length := by
  induction l with
  | nil =>
    intro st
    rfl
  | cons ch rest ih =>
    intro st
    rw [List.foldl_cons, ih, pool_push_length]

theorem pool_deallocate_length (c : PoolConfig) (u : UpstreamSpec)
    (st : PoolState) (ptr size : Nat) :
    (pool_deallocate c u st ptr size).length = st.length := by
  unfold pool_deallocate
  split
  · rfl
  · exact foldl_push_length _ st

theorem pool_pop_stack_length (st : PoolState) (i : Nat) :
    (pool_pop_stack st i).length = st.length := by
  unfold pool_pop_stack
  exact List.length_set st i _

theorem allocate_from_block_length (c : PoolConfig) (u : UpstreamSpec)
    (st : PoolState) (bp bs s al : Nat) :
    ((allocate_from_block c u st bp bs s al).2).length = st.length := by
  unfold allocate_from_block
  by_cases h1 : (align_pointer bp al).2 ≠ 0 <;>
    by_cases h2 : bs - (align_pointer bp al).2 - s ≠ 0 <;>
    simp [h1, h2, pool_deallocate_length]

theorem pool_allocate_length (c : PoolConfig) (u : UpstreamSpec)
    (oracle : Oracle) (st : PoolState) (s al : Nat) :
    ((pool_allocate c u oracle st s al).2.2).length = st.length := by
  unfold pool_allocate
  by_cases hsz : s % c.min_chunk_size ≠ 0
  · rw [if_pos hsz]
  · rw [if_neg hsz]
    cases hfc : pool_find_chunk c u st s al with
    | some ia =>
      dsimp only
      rw [allocate_from_block_length, pool_pop_stack_length]
    | none =>
      dsimp only
      cases hor : oracle (pool_upstream_size c u s al) c.min_chunk_size with
      | none => rfl
      | some b =>
        dsimp only
        rw [allocate_from_block_length]

theorem allocate_from_block_fst (c : PoolConfig) (u : UpstreamSpec)
    (st : PoolState) (bp bs s al : Nat) :
    (allocate_from_block c u st bp bs s al).1 = (align_pointer bp al).1 := rfl

/-- What a successful pop scan certifies: the found class is one of
the scanned ones and the found chunk is on top of its stack. -/
theorem pop_scan_spec (st : PoolState) :
    ∀ l i a, pop_scan st l = some (i, a) →
      i ∈ l ∧ ∃ t, st.getD i [] = a :: t := by
  intro l
  induction l with
  | nil =>
    intro i a h
    simp [pop_scan] at h
  | cons j rest ih =>
    intro i a h
    simp only [pop_scan] at h
    revert h
    cases hg : st.getD j [] with
    | nil =>
      intro h
      have hr := ih i a h
      exact ⟨List.mem_cons_of_mem _ hr.1, hr.2⟩
    | cons b t =>
      intro h
      have h' : some (j, b) = some (i, a) := h
      injection h' with h''
      injection h'' with h1 h2
      subst h1
      subst h2
      exact ⟨List.mem_cons_self _ _, t, hg⟩

theorem mem_drop_range {n k i : Nat} (h : i ∈ (List.range n).drop k) :
    k ≤ i ∧ i < n := by
  refine ⟨?_, List.mem_range.mp (List.mem_of_mem_drop h)⟩
  obtain ⟨idx, hidx, he⟩ := List.getElem_of_mem h
  rw [List.getElem_drop] at he
  rw [List.getElem_range] at he
  omega

theorem range_drop_cons (n k : Nat) (hk : k < n) :
    ∃ rest, (List.range n).drop k = k :: rest := by
  have h1 : ((List.range n).drop k).head? = some k := by
    rw [List.head?_drop]
    simp [List.getElem?_range, hk]
  cases hd : (List.range n).drop k with
  | nil =>
    rw [hd] at h1
    simp at h1
  | cons a rest =>
    rw [hd] at h1
    simp only [List.head?_cons, Option.some.injEq] at h1
    exact ⟨rest, by rw [h1]⟩

theorem log_mult_aux_m1 (m v : Nat) (hm : m < 2) :
    ∀ fuel prod acc, log_mult_aux m v fuel prod acc = acc := by
  intro fuel
  induction fuel with
  | zero =>
    intro prod acc
    rfl
  | succ fuel ih =>
    intro prod acc
    simp only [log_mult_aux]
    by_cases h : prod < v
    · rw [if_pos h, if_pos hm]
    · rw [if_neg h]

/-- A multi-class series forces a multiplier of at least two (with a
smaller multiplier the size loop of `get_chunk_sizes` stops after the
first entry). -/
theorem two_le_mult (c : PoolConfig)
    (h : 1 < (chunk_sizes c).length) : 2 ≤ c.chunk_size_multiplier := by
  unfold chunk_sizes at h
  simp only [List.length_map, List.length_range] at h
  by_contra hm
  push_neg at hm
  unfold log_mult at h
  rw [log_mult_aux_m1 _ _ hm] at h
  omega

theorem chunk_size_strict_mono (c : PoolConfig) (hc : c.Valid)
    (hm : 2 ≤ c.chunk_size_multiplier) {i j : Nat} (hij : i < j)
    (hj : j < (chunk_sizes c).length) :
    (chunk_sizes c).getD i 0 < (chunk_sizes c).getD j 0 := by
  rw [chunk_sizes_getD c (by omega), chunk_sizes_getD c hj]
  have hmin : 0 < c.min_chunk_size := hc.1.pos
  have hpow : c.chunk_size_multiplier ^ i < c.chunk_size_multiplier ^ j :=
    Nat.pow_lt_pow_right (by omega) hij
  exact Nat.mul_lt_mul_of_le_of_lt (le_refl _) hpow hmin

theorem find_class_append (c : PoolConfig) (u : UpstreamSpec)
    (size alignment : Nat) (l₂ : List Nat) :
    ∀ l₁ : List Nat,
    (∀ j ∈ l₁, ¬(size ≤ (chunk_sizes c).getD j 0 ∧
        (alignment ≤ get_chunk_alignment c u j ∨
         alignment - get_chunk_alignment c u j ≤
           (chunk_sizes c).getD j 0 - size))) →
    find_class c u size alignment (l₁ ++ l₂) =
      find_class c u size alignment l₂ := by
  intro l₁
  induction l₁ with
  | nil =>
    intro _
    rfl
  | cons j l ih =>
    intro h
    rw [List.cons_append]
    simp only [find_class]
    rw [if_neg (h j (List.mem_cons_self j l))]
    exact ih (fun x hx => h x (List.mem_cons_of_mem j hx))

theorem find_class_cons_pos (c : PoolConfig) (u : UpstreamSpec)
    (size alignment j : Nat) (l : List Nat)
    (h : size ≤ (chunk_sizes c).getD j 0 ∧
        (alignment ≤ get_chunk_alignment c u j ∨
         alignment - get_chunk_alignment c u j ≤
           (chunk_sizes c).getD j 0 - size)) :
    find_class c u size alignment (j :: l) = some j := by
  simp only [find_class]
  rw [if_pos h]

/-- Requesting exactly a class's chunk size with an alignment within
that class's natural alignment selects exactly that class. -/
theorem find_class_eq (c : PoolConfig) (u : UpstreamSpec) (hc : c.Valid)
    (k : Nat) (hk : k < (chunk_sizes c).length) (alignment : Nat)
    (hal : alignment ≤ get_chunk_alignment c u k) :
    find_class c u ((chunk_sizes c).getD k 0) alignment
      (List.range (chunk_sizes c).length) = some k := by
  have hsplit : List.range (chunk_sizes c).length =
      List.range k ++ (k :: ((List.range ((chunk_sizes c).length - (k + 1))).map
        (fun x => (k + 1) + x))) := by
    rw [show (chunk_sizes c).length =
        (k + 1) + ((chunk_sizes c).length - (k + 1)) from by omega,
      List.range_add, List.range_succ]
    simp [List.append_assoc]
  rw [hsplit,
    find_class_append c u _ _ _ (List.range k) ?hfail,
    find_class_cons_pos c u _ _ k _ ⟨le_refl _, Or.inl hal⟩]
  case hfail =>
    intro j hj
    have hjk : j < k := List.mem_range.mp hj
    have hm : 2 ≤ c.chunk_size_multiplier := two_le_mult c (by omega)
    have hlt := chunk_size_strict_mono c hc hm hjk hk
    intro hcon
    omega

/-- Deallocating exactly one class-aligned chunk of class `k`: the
split search run from any scan start above `k` lands on class `k`
itself (with zero padding) when `k` is a non-zero class, and finds
nothing when `k = 0`. -/
theorem find_split_above (c : PoolConfig) (u : UpstreamSpec) (hc : c.Valid)
    (hu : IsPow2 u.guaranteed_alignment) (p k : Nat)
    (hk : k < (chunk_sizes c).length)
    (hp : p % get_chunk_alignment c u k = 0) :
    ∀ d, k + 1 + d ≤ (chunk_sizes c).length →
    find_split c u p ((chunk_sizes c).getD k 0) (k + 1 + d) =
      if k = 0 then none else some (k, 0) := by
  intro d
  induction d with
  | zero =>
    intro hle
    rw [Nat.add_zero]
    cases k with
    | zero => rfl
    | succ k' =>
      rw [if_neg (Nat.succ_ne_zero k')]
      have hApos : 0 < get_chunk_alignment c u (k' + 1) :=
        chunk_alignment_pos c u hc hu _
      have hap : align_pointer p (get_chunk_alignment c u (k' + 1)) =
          (p, 0) := align_pointer_of_dvd hApos (Nat.dvd_of_mod_eq_zero hp)
      simp only [find_split]
      rw [if_neg (by omega), hap]
      simp
  | succ d ih =>
    intro hle
    have hm : 2 ≤ c.chunk_size_multiplier := two_le_mult c (by omega)
    have hlt : (chunk_sizes c).getD k 0 < (chunk_sizes c).getD (k + d + 1) 0 :=
      chunk_size_strict_mono c hc hm (by omega) (by omega)
    rw [show k + 1 + (d + 1) = (k + d + 1) + 1 from by omega]
    simp only [find_split]
    rw [if_pos hlt]
    rw [show k + d + 1 = k + 1 + d from by omega]
    exact ih (by omega)

theorem fill_chunks_zero (c : PoolConfig) :
    ∀ i up lp, fill_chunks c i up 0 lp 0 = [] := by
  intro i
  induction i with
  | zero =>
    intro up lp
    rfl
  | succ i ih =>
    intro up lp
    rw [fill_chunks_succ]
    have h1 : carve_upper up ((chunk_sizes c).getD i 0) 0 0 = ([], 0) := rfl
    have h2 : carve_lower ((chunk_sizes c).getD i 0) 0 lp 0 = ([], lp, 0) :=
      rfl
    rw [h1, h2]
    dsimp only
    rw [ih]
    rfl

/-- Filling a bare class-`i`-sized lower range with classes `i ... 0`
carves exactly the one chunk. -/
theorem fill_single (c : PoolConfig) (i p : Nat)
    (hcs : 0 < (chunk_sizes c).getD i 0) :
    fill_chunks c (i + 1) p 0 p ((chunk_sizes c).getD i 0) = [(i, p)] := by
  rw [fill_chunks_succ]
  have hu0 : carve_upper p ((chunk_sizes c).getD i 0) 0 0 = ([], 0) := rfl
  have hl : carve_lower ((chunk_sizes c).getD i 0) ((chunk_sizes c).getD i 0)
      p ((chunk_sizes c).getD i 0) =
      ([p], p + (chunk_sizes c).getD i 0, 0) := by
    rw [carve_lower_eq _ hcs _ _ _ (Nat.le_refl _), Nat.div_self hcs,
      Nat.mod_self, show List.range 1 = [0] from rfl]
    simp
  rw [hu0, hl]
  dsimp only
  rw [fill_chunks_zero]
  simp

/-- Deallocating a single chunk-sized, chunk-aligned block of class
`k` pushes back exactly that one chunk of class `k`. -/
theorem dealloc_single_chunk (c : PoolConfig) (u : UpstreamSpec)
    (hc : c.Valid) (hu : IsPow2 u.guaranteed_alignment) {k p : Nat}
    (hk : k < (chunk_sizes c).length)
    (hp : p % get_chunk_alignment c u k = 0) :
    dealloc_chunks c u p ((chunk_sizes c).getD k 0) = [(k, p)] := by
  unfold dealloc_chunks
  rw [show (chunk_sizes c).length =
      k + 1 + ((chunk_sizes c).length - (k + 1)) from by omega,
    find_split_above c u hc hu p k hk hp _ (by omega)]
  by_cases hk0 : k = 0
  · subst hk0
    show fill_chunks c 1 p 0 p ((chunk_sizes c).getD 0 0) = [(0, p)]
    exact fill_single c 0 p (chunk_size_pos c hc hk)
  · rw [if_neg hk0]
    show fill_chunks c (k + 1) p 0 (p + 0) ((chunk_sizes c).getD k 0 - 0) =
      [(k, p)]
    rw [Nat.add_zero, Nat.sub_zero]
    exact fill_single c k p (chunk_size_pos c hc hk)

theorem pool_push_getD (st : PoolState) (k a : Nat) (hk : k < st.length) :
    (pool_push st k a).getD k [] = a :: st.getD k [] := by
  unfold pool_push
  rw [List.getD_eq_getElem?_getD]
  simp [List.getElem?_set_self, hk]

set_option maxHeartbeats 1600000 in
/-- Claim C7: round-trip reuse.  For every well-formed pool state, a
request of exactly some class's chunk size with a power-of-two
alignment within that class's natural alignment: if `allocate`
returns a pointer `p`, then after `deallocate(p, size)` a second
`allocate` with the same parameters succeeds (returning that very
pointer) and issues no upstream request — the freed chunk is reused
from its class's free stack. -/
theorem claim_pool_roundtrip (c : PoolConfig) (u : UpstreamSpec)
    (oracle : Oracle) (st : PoolState) (hc : c.Valid)
    (hu : IsPow2 u.guaranteed_alignment) (hst : PoolWF c u st)
    (horacle : OracleWF u oracle) (k alignment : Nat)
    (hk : k < (chunk_sizes c).length) (hal_pow : IsPow2 alignment)
    (hal : alignment ≤ get_chunk_alignment c u k) (p : Nat)
    (hp : (pool_allocate c u oracle st ((chunk_sizes c).getD k 0)
        alignment).1 = some p) :
    p ≠ 0 ∧
    (pool_allocate c u oracle
        (pool_deallocate c u
          ((pool_allocate c u oracle st ((chunk_sizes c).getD k 0)
            alignment).2.2) p ((chunk_sizes c).getD k 0))
        ((chunk_sizes c).getD k 0) alignment).1 = some p ∧
    (pool_allocate c u oracle
        (pool_deallocate c u
          ((pool_allocate c u oracle st ((chunk_sizes c).getD k 0)
            alignment).2.2) p ((chunk_sizes c).getD k 0))
        ((chunk_sizes c).getD k 0) alignment).2.1 = [] := by
  have hApos : 0 < get_chunk_alignment c u k :=
    chunk_alignment_pos c u hc hu k
  have hmin_pos : 0 < c.min_chunk_size := hc.1.pos
  have hcs_pos : 0 < (chunk_sizes c).getD k 0 := chunk_size_pos c hc hk
  have hsizemod : (chunk_sizes c).getD k 0 % c.min_chunk_size = 0 :=
    Nat.mod_eq_zero_of_dvd (min_dvd_chunk_size c hk)
  have hminle : c.min_chunk_size ≤ (chunk_sizes c).getD k 0 :=
    Nat.le_of_dvd hcs_pos (min_dvd_chunk_size c hk)
  have halA : alignment ∣ get_chunk_alignment c u k :=
    hal_pow.dvd_of_le (chunk_alignment_pow2 c u hc hu k) hal
  have hkey : p ≠ 0 ∧ p % get_chunk_alignment c u k = 0 := by
    unfold pool_allocate at hp
    rw [if_neg (by omega)] at hp
    cases hfc : pool_find_chunk c u st ((chunk_sizes c).getD k 0)
        alignment with
    | some ia =>
      rw [hfc] at hp
      obtain ⟨i, a⟩ := ia
      dsimp only at hp
      injection hp with hp
      unfold pool_find_chunk at hfc
      rw [find_class_eq c u hc k hk alignment hal] at hfc
      dsimp only at hfc
      obtain ⟨hmem, t, hget⟩ := pop_scan_spec st _ i a hfc
      obtain ⟨hki, hin⟩ := mem_drop_range hmem
      have hwf := hst.2 i (by rw [hst.1]; exact hin) a
        (by rw [hget]; exact List.mem_cons_self _ _)
      have hAki : get_chunk_alignment c u k ∣ get_chunk_alignment c u i :=
        chunk_alignment_dvd_of_le c u hc hu hki hin
      have haal : alignment ∣ a :=
        dvd_trans (dvd_trans halA hAki) (Nat.dvd_of_mod_eq_zero hwf.2)
      rw [allocate_from_block_fst,
        align_pointer_of_dvd hal_pow.pos haal] at hp
      dsimp only at hp
      subst hp
      exact ⟨hwf.1, Nat.mod_eq_zero_of_dvd
        (dvd_trans hAki (Nat.dvd_of_mod_eq_zero hwf.2))⟩
    | none =>
      rw [hfc] at hp
      dsimp only at hp
      cases hor : oracle (pool_upstream_size c u ((chunk_sizes c).getD k 0)
          alignment) c.min_chunk_size with
      | none =>
        rw [hor] at hp
        exact absurd hp (by simp)
      | some b =>
        rw [hor] at hp
        dsimp only at hp
        injection hp with hp
        have hb := horacle _ _ _ hor
        have hupb : get_upstream_alignment c u ∣ b := by
          apply Nat.dvd_of_mod_eq_zero
          exact hb.2
        have hAup : get_chunk_alignment c u k ∣
            get_upstream_alignment c u := by
          apply (chunk_alignment_pow2 c u hc hu k).dvd_of_le
            (upstream_alignment_pow2 c u hc hu)
          unfold get_chunk_alignment
          exact Nat.min_le_right _ _
        have hba : alignment ∣ b := dvd_trans (dvd_trans halA hAup) hupb
        rw [allocate_from_block_fst,
          align_pointer_of_dvd hal_pow.pos hba] at hp
        dsimp only at hp
        subst hp
        exact ⟨hb.1, Nat.mod_eq_zero_of_dvd (dvd_trans hAup hupb)⟩
  obtain ⟨hp0, hpA⟩ := hkey
  have hpal_dvd : alignment ∣ p :=
    dvd_trans halA (Nat.dvd_of_mod_eq_zero hpA)
  set st1 := (pool_allocate c u oracle st ((chunk_sizes c).getD k 0)
    alignment).2.2 with hst1def
  have hlen1 : st1.length = (chunk_sizes c).length := by
    rw [hst1def, pool_allocate_length, hst.1]
  have hd : pool_deallocate c u st1 p ((chunk_sizes c).getD k 0) =
      pool_push st1 k p := by
    unfold pool_deallocate
    rw [if_neg (by
        intro hcon
        rcases hcon with h | h
        · exact hp0 h
        · omega),
      dealloc_single_chunk c u hc hu hk hpA]
    rfl
  obtain ⟨rest, hdr⟩ := range_drop_cons (chunk_sizes c).length k hk
  have hfc2 : pool_find_chunk c u (pool_push st1 k p)
      ((chunk_sizes c).getD k 0) alignment = some (k, p) := by
    unfold pool_find_chunk
    rw [find_class_eq c u hc k hk alignment hal]
    dsimp only
    rw [hdr]
    simp only [pop_scan]
    rw [pool_push_getD _ _ _ (by rw [hlen1]; exact hk)]
  refine ⟨hp0, ?_, ?_⟩
  · rw [hd]
    unfold pool_allocate
    rw [if_neg (by omega), hfc2]
    dsimp only
    rw [allocate_from_block_fst,
      align_pointer_of_dvd hal_pow.pos hpal_dvd]
  · rw [hd]
    unfold pool_allocate
    rw [if_neg (by omega), hfc2]

/-- Witness for C7: the (1024, 4096, 2) pool over a 16-byte-aligned
upstream whose oracle hands out block 65536 whenever that address
respects the requested alignment, allocating a class-0 chunk
(1024 bytes, 1024-aligned) starting from the empty pool. -/
theorem claim_pool_roundtrip_witness :
    (PoolConfig.Valid ⟨1024, 4096, 2⟩ ∧ IsPow2 (16 : Nat) ∧
      PoolWF ⟨1024, 4096, 2⟩ ⟨false, false, 1, 16⟩
        (pool_empty ⟨1024, 4096, 2⟩) ∧
      OracleWF ⟨false, false, 1, 16⟩
        (fun _ al => if 65536 % Nat.max al 16 = 0 then some 65536
          else none) ∧
      0 < (chunk_sizes ⟨1024, 4096, 2⟩).length ∧
      IsPow2 (1024 : Nat) ∧
      1024 ≤ get_chunk_alignment ⟨1024, 4096, 2⟩ ⟨false, false, 1, 16⟩ 0 ∧
      (pool_allocate ⟨1024, 4096, 2⟩ ⟨false, false, 1, 16⟩
        (fun _ al => if 65536 % Nat.max al 16 = 0 then some 65536 else none)
        (pool_empty ⟨1024, 4096, 2⟩)
        ((chunk_sizes ⟨1024, 4096, 2⟩).getD 0 0) 1024).1 = some 65536) ∧
    ((65536 : Nat) ≠ 0 ∧
      (pool_allocate ⟨1024, 4096, 2⟩ ⟨false, false, 1, 16⟩
        (fun _ al => if 65536 % Nat.max al 16 = 0 then some 65536 else none)
        (pool_deallocate ⟨1024, 4096, 2⟩ ⟨false, false, 1, 16⟩
          ((pool_allocate ⟨1024, 4096, 2⟩ ⟨false, false, 1, 16⟩
            (fun _ al => if 65536 % Nat.max al 16 = 0 then some 65536
              else none)
            (pool_empty ⟨1024, 4096, 2⟩)
            ((chunk_sizes ⟨1024, 4096, 2⟩).getD 0 0) 1024).2.2)
          65536 ((chunk_sizes ⟨1024, 4096, 2⟩).getD 0 0))
        ((chunk_sizes ⟨1024, 4096, 2⟩).getD 0 0) 1024).1 = some 65536 ∧
      (pool_allocate ⟨1024, 4096, 2⟩ ⟨false, false, 1, 16⟩
        (fun _ al => if 65536 % Nat.max al 16 = 0 then some 65536 else none)
        (pool_deallocate ⟨1024, 4096, 2⟩ ⟨false, false, 1, 16⟩
          ((pool_allocate ⟨1024, 4096, 2⟩ ⟨false, false, 1, 16⟩
            (fun _ al => if 65536 % Nat.max al 16 = 0 then some 65536
              else none)
            (pool_empty ⟨1024, 4096, 2⟩)
            ((chunk_sizes ⟨1024, 4096, 2⟩).getD 0 0) 1024).2.2)
          65536 ((chunk_sizes ⟨1024, 4096, 2⟩).getD 0 0))
        ((chunk_sizes ⟨1024, 4096, 2⟩).getD 0 0) 1024).2.1 = []) := by
  have horc : OracleWF ⟨false, false, 1, 16⟩
      (fun _ al => if 65536 % Nat.max al 16 = 0 then some 65536
        else none) := by
    intro sz al r h
    dsimp only at h
    by_cases hcnd : (65536 : Nat) % Nat.max al 16 = 0
    · rw [if_pos hcnd] at h
      injection h with h
      subst h
      exact ⟨by decide, hcnd⟩
    · rw [if_neg hcnd] at h
      exact absurd h (by simp)
  have hwf : PoolWF ⟨1024, 4096, 2⟩ ⟨false, false, 1, 16⟩
      (pool_empty ⟨1024, 4096, 2⟩) := by
    constructor
    · decide
    · intro i hi a ha
      have he : (pool_empty (⟨1024, 4096, 2⟩ : PoolConfig)).getD i [] =
          [] := by
        unfold pool_empty
        rw [List.getD_eq_getElem?_getD, List.getElem?_replicate]
        split <;> rfl
      rw [he] at ha
      exact absurd ha (List.not_mem_nil a)
  exact ⟨⟨by decide, by decide, hwf, horc, by decide, by decide,
      by decide, by decide⟩,
    claim_pool_roundtrip ⟨1024, 4096, 2⟩ ⟨false, false, 1, 16⟩
      (fun _ al => if 65536 % Nat.max al 16 = 0 then some 65536 else none)
      (pool_empty ⟨1024, 4096, 2⟩) (by decide) (by decide) hwf horc
      0 1024 (by decide) (by decide) (by decide) 65536 (by decide)⟩

end Memaw
